import Mathlib

/-!
# Verification of the porchsongs chord/lyric alignment engine

Shallow embedding of `backend/app/services/chord_parser.py`.  Python strings
are modelled as `List Char`; a full document text is a `List Char` that the
engine splits on `'\n'`.  Machine integers of the source are all nonnegative
list indices and lengths, so they are modelled as `Nat`.
-/

namespace Porchsongs

/-! ## Python string primitives -/

/-- Python `str.isspace` characters that can occur in these texts
(ASCII whitespace: space, tab, newline, carriage return, vertical tab,
form feed). -/
def pyIsSpace (c : Char) : Bool :=
  c = ' ' || c = '\t' || c = '\n' || c = '\r' || c = Char.ofNat 11 || c = Char.ofNat 12

/-- Python `str.lstrip()`. -/
def lstrip (l : List Char) : List Char := l.dropWhile pyIsSpace

/-- Python `str.rstrip()`. -/
def rstrip (l : List Char) : List Char := (l.reverse.dropWhile pyIsSpace).reverse

/-- Python `str.strip()`. -/
def pyStrip (l : List Char) : List Char := rstrip (lstrip l)

theorem length_dropWhile_le (p : Char → Bool) (l : List Char) :
    (l.dropWhile p).length ≤ l.length := by
  induction l with
  | nil => simp
  | cons c cs ih =>
    rw [List.dropWhile_cons]
    split
    · simp only [List.length_cons]
      omega
    · simp

/-- Python `str.split()` with no separator (fuel-bounded so that the
recursion is structural: fuel `l.length` always suffices because
`dropWhile` never lengthens a list). -/
def pySplitF : Nat → List Char → List (List Char)
  | _, [] => []
  | 0, _ :: _ => []
  | n + 1, c :: rest =>
    if pyIsSpace c then pySplitF n rest
    else (c :: rest.takeWhile (fun d => !pyIsSpace d))
         :: pySplitF n (rest.dropWhile (fun d => !pyIsSpace d))

/-- Python `str.split()` with no separator: split on runs of whitespace,
discarding empty pieces. -/
def pySplit (l : List Char) : List (List Char) := pySplitF l.length l

/-- Python `text.split("\n")`. -/
def splitNl : List Char → List (List Char)
  | [] => [[]]
  | c :: rest =>
    if c = '\n' then [] :: splitNl rest
    else (c :: (splitNl rest).headD []) :: (splitNl rest).tail

/-- Python `"\n".join(lines)`. -/
def joinNl : List (List Char) → List Char
  | [] => []
  | l :: ls =>
    match ls with
    | [] => l
    | _ :: _ => l ++ '\n' :: joinNl ls

theorem splitNl_ne_nil (s : List Char) : splitNl s ≠ [] := by
  induction s with
  | nil => simp [splitNl]
  | cons c rest ih =>
    simp only [splitNl]
    split <;> simp

theorem joinNl_cons_cons (l l2 : List Char) (ls : List (List Char)) :
    joinNl (l :: l2 :: ls) = l ++ '\n' :: joinNl (l2 :: ls) := rfl

theorem joinNl_cons_of_ne_nil (l : List Char) (ls : List (List Char)) (h : ls ≠ []) :
    joinNl (l :: ls) = l ++ '\n' :: joinNl ls := by
  cases ls with
  | nil => exact absurd rfl h
  | cons l2 ls2 => rfl

/-- `splitNl` on a line without newlines gives back the single line. -/
theorem splitNl_of_no_newline (l : List Char) (h : '\n' ∉ l) :
    splitNl l = [l] := by
  induction l with
  | nil => rfl
  | cons c cs ih =>
    have hc : c ≠ '\n' := fun hh => h (by simp [hh])
    have hcs : '\n' ∉ cs := fun hh => h (by simp [hh])
    simp [splitNl, if_neg hc, ih hcs]

/-- `splitNl` cuts off a newline-free prefix at the first `'\n'`. -/
theorem splitNl_append_newline (l s : List Char) (h : '\n' ∉ l) :
    splitNl (l ++ '\n' :: s) = l :: splitNl s := by
  induction l with
  | nil => simp [splitNl]
  | cons c cs ih =>
    have hc : c ≠ '\n' := fun hh => h (by simp [hh])
    have hcs : '\n' ∉ cs := fun hh => h (by simp [hh])
    rw [List.cons_append]
    simp only [splitNl, if_neg hc, ih hcs]
    simp

theorem joinNl_splitNl (s : List Char) : joinNl (splitNl s) = s := by
  induction s with
  | nil => rfl
  | cons c rest ih =>
    simp only [splitNl]
    split
    · rename_i hc
      subst hc
      rw [joinNl_cons_of_ne_nil _ _ (splitNl_ne_nil rest), ih]
      rfl
    · rename_i hc
      cases h : splitNl rest with
      | nil => exact absurd h (splitNl_ne_nil rest)
      | cons l ls =>
        rw [h] at ih
        cases ls with
        | nil =>
          simp only [joinNl, List.headD, List.tail] at ih ⊢
          rw [ih]
        | cons l2 ls2 =>
          rw [joinNl_cons_cons] at ih
          simp only [List.headD, List.tail]
          rw [joinNl_cons_cons, List.cons_append, ih]

theorem newline_not_mem_splitNl (s : List Char) :
    ∀ l ∈ splitNl s, '\n' ∉ l := by
  induction s with
  | nil => simp [splitNl]
  | cons c rest ih =>
    simp only [splitNl]
    split
    · intro l hl
      rcases List.mem_cons.mp hl with h | h
      · subst h; simp
      · exact ih l h
    · rename_i hc
      cases h : splitNl rest with
      | nil => exact absurd h (splitNl_ne_nil rest)
      | cons x xs =>
        simp only [List.headD, List.tail]
        intro l hl
        rcases List.mem_cons.mp hl with h2 | h2
        · subst h2
          intro hmem
          rcases List.mem_cons.mp hmem with h3 | h3
          · exact hc h3.symm
          · exact ih x (h ▸ List.mem_cons_self x xs) h3
        · exact ih l (h ▸ List.mem_cons_of_mem x h2)

theorem splitNl_joinNl (ls : List (List Char)) (hne : ls ≠ [])
    (hfree : ∀ l ∈ ls, '\n' ∉ l) : splitNl (joinNl ls) = ls := by
  induction ls with
  | nil => exact absurd rfl hne
  | cons l rest ih =>
    cases rest with
    | nil =>
      simp only [joinNl]
      exact splitNl_of_no_newline l (hfree l (by simp))
    | cons l2 rest2 =>
      rw [joinNl_cons_cons,
          splitNl_append_newline l (joinNl (l2 :: rest2)) (hfree l (by simp)),
          ih (by simp) (fun x hx => hfree x (List.mem_cons_of_mem l hx))]

/-! ## §4.1 Chord-Token Classifier (`is_chord_line`)

The source tests every whitespace-delimited token of the stripped line
against the regex `^[A-G][#b]?(m|maj|min|dim|aug|sus[24]?|add\d+|\d+|/[A-G][#b]?)*$`.
`re.match` with backtracking accepts a token iff it lies in the language of
that pattern; `matchQualsF` below is a fuel-bounded backtracking matcher for
the starred group (consuming digit runs one digit at a time, which generates
the same language under the star). -/

/-- `[A-G]`: an uppercase note letter. -/
def noteB (c : Char) : Bool := decide ('A' ≤ c) && decide (c ≤ 'G')

/-- `[#b]`: an accidental. -/
def accB (c : Char) : Bool := c = '#' || c = 'b'

/-- If `p` is a prefix of `l`, return the rest of `l`. -/
def tryPre : List Char → List Char → Option (List Char)
  | [], l => some l
  | _ :: _, [] => none
  | p :: ps, c :: cs => if c = p then tryPre ps cs else none

/-- The fixed-word alternatives of the starred qualifier group. -/
def fixedQuals : List (List Char) :=
  [['m', 'a', 'j'], ['m', 'i', 'n'], ['m'], ['d', 'i', 'm'], ['a', 'u', 'g'],
   ['s', 'u', 's', '2'], ['s', 'u', 's', '4'], ['s', 'u', 's']]

/-- Backtracking matcher for `(m|maj|min|dim|aug|sus[24]?|add\d+|\d+|/[A-G][#b]?)*`.
Total because every alternative consumes at least one character, so fuel
`l.length` suffices. -/
def matchQualsF : Nat → List Char → Bool
  | _, [] => true
  | 0, _ :: _ => false
  | n + 1, c :: cs =>
      (fixedQuals.any fun q =>
        match tryPre q (c :: cs) with
        | some r => matchQualsF n r
        | none => false) ||
      (match tryPre ['a', 'd', 'd'] (c :: cs) with
       | some (d :: r) => d.isDigit && matchQualsF n r
       | _ => false) ||
      (c.isDigit && matchQualsF n cs) ||
      (if c = '/' then
         match cs with
         | b :: r =>
             noteB b &&
               (matchQualsF n r ||
                (match r with
                 | a :: r2 => accB a && matchQualsF n r2
                 | [] => false))
         | [] => false
       else false)

/-- `re.match(r"^[A-G][#b]?(...)*$", token)` as a Boolean on the whole token.
The accidental may be consumed greedily: no qualifier alternative starts
with `#` or `b`, so greedy consumption equals full backtracking. -/
def matchChordToken : List Char → Bool
  | [] => false
  | c :: rest =>
      noteB c &&
      match rest with
      | a :: rest2 =>
          if accB a then matchQualsF rest2.length rest2
          else matchQualsF (a :: rest2).length (a :: rest2)
      | [] => true

/-- `is_chord_line` from the source: strip, reject the empty line, then require
every whitespace-delimited token to match the chord-token regex. -/
def is_chord_line (line : List Char) : Bool :=
  let stripped := pyStrip line
  if stripped = [] then false
  else (pySplit stripped).all matchChordToken

/-! ### The chord grammar as the spec states it

The claim's grammar, written independently of the matcher: a chord token is
a note letter, an optional accidental, then a sequence of qualifier atoms
(`m`, `maj`, `min`, `dim`, `aug`, `sus`/`sus2`/`sus4`, `add` followed by
digits, bare digits, or a slash bass). -/

/-- One qualifier atom of the grammar. -/
inductive QualAtom : List Char → Prop
  | m : QualAtom ['m']
  | maj : QualAtom ['m', 'a', 'j']
  | minq : QualAtom ['m', 'i', 'n']
  | dim : QualAtom ['d', 'i', 'm']
  | aug : QualAtom ['a', 'u', 'g']
  | sus : QualAtom ['s', 'u', 's']
  | sus2 : QualAtom ['s', 'u', 's', '2']
  | sus4 : QualAtom ['s', 'u', 's', '4']
  | addq (ds : List Char) : ds ≠ [] → (∀ c ∈ ds, c.isDigit = true) →
      QualAtom (['a', 'd', 'd'] ++ ds)
  | digits (ds : List Char) : ds ≠ [] → (∀ c ∈ ds, c.isDigit = true) →
      QualAtom ds
  | slash (b : Char) : noteB b = true → QualAtom ['/', b]
  | slashAcc (b a : Char) : noteB b = true → accB a = true → QualAtom ['/', b, a]

/-- A concatenation of qualifier atoms. -/
inductive QualSeq : List Char → Prop
  | nil : QualSeq []
  | cons {q r : List Char} : QualAtom q → QualSeq r → QualSeq (q ++ r)

/-- The spec's chord-token grammar: note letter, optional accidental,
then qualifier atoms. -/
def ChordTokenSpec (t : List Char) : Prop :=
  (∃ c r, t = c :: r ∧ noteB c = true ∧ QualSeq r) ∨
  (∃ c a r, t = c :: a :: r ∧ noteB c = true ∧ accB a = true ∧ QualSeq r)

theorem tryPre_eq_some_iff (p l r : List Char) :
    tryPre p l = some r ↔ l = p ++ r := by
  induction p generalizing l with
  | nil => simp [tryPre]
  | cons x xs ih =>
    cases l with
    | nil => simp [tryPre]
    | cons c cs =>
      simp only [tryPre]
      by_cases h : c = x
      · subst h
        simp [ih]
      · simp only [if_neg h]
        constructor
        · intro hh
          exact absurd hh (by simp)
        · intro hh
          rw [List.cons_append] at hh
          injection hh with h1 h2
          exact absurd h1 h

theorem qualAtom_ne_nil {q : List Char} (h : QualAtom q) : q ≠ [] := by
  cases h <;> simp_all

theorem qualSeq_inv {l : List Char} (h : QualSeq l) :
    l = [] ∨ ∃ q r, QualAtom q ∧ QualSeq r ∧ l = q ++ r ∧ q ≠ [] := by
  cases h with
  | nil => exact Or.inl rfl
  | cons hq hr =>
    rename_i q r
    exact Or.inr ⟨q, r, hq, hr, rfl, qualAtom_ne_nil hq⟩

theorem qualSeq_head_not_acc {x : Char} {xs : List Char}
    (h : QualSeq (x :: xs)) : accB x = false := by
  rcases qualSeq_inv h with h | ⟨q, r, hq, _, heq, hne⟩
  · simp at h
  · cases q with
    | nil => exact absurd rfl hne
    | cons y ys =>
      rw [List.cons_append] at heq
      injection heq with h1 h2
      subst h1
      cases hq with
      | m => rfl
      | maj => rfl
      | minq => rfl
      | dim => rfl
      | aug => rfl
      | sus => rfl
      | sus2 => rfl
      | sus4 => rfl
      | addq ds hne2 hdig => rfl
      | slash b hb => rfl
      | slashAcc b a hb ha => rfl
      | digits ds hne2 hdig =>
        have hd : x.isDigit = true := hdig x (by simp)
        cases hx : accB x
        · rfl
        · exfalso
          simp only [accB, Bool.or_eq_true, decide_eq_true_eq] at hx
          rcases hx with h1 | h1 <;> subst h1 <;> exact absurd hd (by decide)

/-- A digit run followed by a qualifier sequence is a qualifier sequence. -/
theorem qualSeq_digits_append {ds r : List Char}
    (hds : ∀ c ∈ ds, c.isDigit = true) (hr : QualSeq r) : QualSeq (ds ++ r) := by
  cases ds with
  | nil => simpa using hr
  | cons d ds2 => exact QualSeq.cons (QualAtom.digits _ (by simp) hds) hr

/-- The fuel-bounded backtracking matcher decides exactly the starred
qualifier grammar, for any fuel of at least the token's length. -/
theorem matchQualsF_iff : ∀ (n : Nat) (l : List Char), l.length ≤ n →
    (matchQualsF n l = true ↔ QualSeq l) := by
  intro n
  induction n with
  | zero =>
    intro l hl
    have : l = [] := by
      cases l with
      | nil => rfl
      | cons c cs => simp at hl
    subst this
    simp [matchQualsF, QualSeq.nil]
  | succ n ih =>
    intro l hl
    cases l with
    | nil => simp [matchQualsF, QualSeq.nil]
    | cons c cs =>
      constructor
      · intro h
        simp only [matchQualsF, Bool.or_eq_true] at h
        rcases h with ((h | h) | h) | h
        · rw [List.any_eq_true] at h
          obtain ⟨q, hq, hmatch⟩ := h
          cases htp : tryPre q (c :: cs) with
          | none => rw [htp] at hmatch; simp at hmatch
          | some r =>
            rw [htp] at hmatch
            simp only at hmatch
            have heq : c :: cs = q ++ r := (tryPre_eq_some_iff q (c :: cs) r).mp htp
            have hqr : QualSeq r := by
              have hqne : q ≠ [] := by
                simp only [fixedQuals, List.mem_cons, List.mem_singleton,
                  List.not_mem_nil, or_false] at hq
                rcases hq with h | h | h | h | h | h | h | h <;> simp_all
              have hrlen : r.length ≤ n := by
                have := congrArg List.length heq
                simp only [List.length_cons, List.length_append] at this
                cases q with
                | nil => exact absurd rfl hqne
                | cons _ _ => simp only [List.length_cons] at this hl ⊢; omega
              exact (ih r hrlen).mp hmatch
            have hqa : QualAtom q := by
              simp only [fixedQuals, List.mem_cons, List.mem_singleton,
                List.not_mem_nil, or_false] at hq
              rcases hq with h | h | h | h | h | h | h | h <;> subst h
              · exact QualAtom.maj
              · exact QualAtom.minq
              · exact QualAtom.m
              · exact QualAtom.dim
              · exact QualAtom.aug
              · exact QualAtom.sus2
              · exact QualAtom.sus4
              · exact QualAtom.sus
            rw [heq]
            exact QualSeq.cons hqa hqr
        · cases htp : tryPre ['a', 'd', 'd'] (c :: cs) with
          | none => rw [htp] at h; simp at h
          | some r0 =>
            rw [htp] at h
            cases r0 with
            | nil => simp at h
            | cons d r =>
              simp only [Bool.and_eq_true] at h
              have heq : c :: cs = ['a', 'd', 'd'] ++ (d :: r) :=
                (tryPre_eq_some_iff _ _ _).mp htp
              have hrlen : r.length ≤ n := by
                have := congrArg List.length heq
                simp only [List.length_cons, List.length_append] at this hl ⊢
                omega
              have hqr : QualSeq r := (ih r hrlen).mp h.2
              rw [heq]
              have : (['a', 'd', 'd'] ++ (d :: r) : List Char)
                  = (['a', 'd', 'd'] ++ [d]) ++ r := by simp
              rw [this]
              exact QualSeq.cons
                (QualAtom.addq [d] (by simp) (by simpa using h.1)) hqr
        · simp only [Bool.and_eq_true] at h
          have hqr : QualSeq cs := by
            have : cs.length ≤ n := by simp only [List.length_cons] at hl; omega
            exact (ih cs this).mp h.2
          have : (c :: cs : List Char) = [c] ++ cs := rfl
          rw [this]
          exact QualSeq.cons (QualAtom.digits [c] (by simp) (by simpa using h.1)) hqr
        · by_cases hc : c = '/'
          · rw [if_pos hc] at h
            subst hc
            cases cs with
            | nil => simp at h
            | cons b r =>
              simp only [Bool.and_eq_true, Bool.or_eq_true] at h
              obtain ⟨hb, h2⟩ := h
              rcases h2 with h2 | h2
              · have hrlen : r.length ≤ n := by
                  simp only [List.length_cons] at hl; omega
                have hqr : QualSeq r := (ih r hrlen).mp h2
                have : ('/' :: b :: r : List Char) = ['/', b] ++ r := rfl
                rw [this]
                exact QualSeq.cons (QualAtom.slash b hb) hqr
              · cases r with
                | nil => simp at h2
                | cons a r2 =>
                  simp only [Bool.and_eq_true] at h2
                  have hrlen : r2.length ≤ n := by
                    simp only [List.length_cons] at hl; omega
                  have hqr : QualSeq r2 := (ih r2 hrlen).mp h2.2
                  have : ('/' :: b :: a :: r2 : List Char) = ['/', b, a] ++ r2 := rfl
                  rw [this]
                  exact QualSeq.cons (QualAtom.slashAcc b a hb h2.1) hqr
          · rw [if_neg hc] at h
            simp at h
      · intro h
        rcases qualSeq_inv h with h0 | ⟨q, r, hqa, hqr, heq, hqne⟩
        · simp at h0
        · have hlen : (c :: cs).length ≤ n + 1 := hl
          have hstep : ∀ r2 : List Char, QualSeq r2 → r2.length ≤ n →
              matchQualsF n r2 = true := fun r2 hr2 hlen2 => (ih r2 hlen2).mpr hr2
          simp only [matchQualsF, Bool.or_eq_true]
          cases hqa with
          | m =>
            refine Or.inl (Or.inl (Or.inl ?_))
            rw [List.any_eq_true]
            refine ⟨['m'], by simp [fixedQuals], ?_⟩
            rw [(tryPre_eq_some_iff ['m'] (c :: cs) r).mpr heq]
            simp only
            refine hstep r hqr ?_
            have := congrArg List.length heq
            simp only [List.length_cons, List.length_append, List.length_nil] at this hl ⊢
            omega
          | maj =>
            refine Or.inl (Or.inl (Or.inl ?_))
            rw [List.any_eq_true]
            refine ⟨['m', 'a', 'j'], by simp [fixedQuals], ?_⟩
            rw [(tryPre_eq_some_iff ['m', 'a', 'j'] (c :: cs) r).mpr heq]
            simp only
            refine hstep r hqr ?_
            have := congrArg List.length heq
            simp only [List.length_cons, List.length_append, List.length_nil] at this hl ⊢
            omega
          | minq =>
            refine Or.inl (Or.inl (Or.inl ?_))
            rw [List.any_eq_true]
            refine ⟨['m', 'i', 'n'], by simp [fixedQuals], ?_⟩
            rw [(tryPre_eq_some_iff ['m', 'i', 'n'] (c :: cs) r).mpr heq]
            simp only
            refine hstep r hqr ?_
            have := congrArg List.length heq
            simp only [List.length_cons, List.length_append, List.length_nil] at this hl ⊢
            omega
          | dim =>
            refine Or.inl (Or.inl (Or.inl ?_))
            rw [List.any_eq_true]
            refine ⟨['d', 'i', 'm'], by simp [fixedQuals], ?_⟩
            rw [(tryPre_eq_some_iff ['d', 'i', 'm'] (c :: cs) r).mpr heq]
            simp only
            refine hstep r hqr ?_
            have := congrArg List.length heq
            simp only [List.length_cons, List.length_append, List.length_nil] at this hl ⊢
            omega
          | aug =>
            refine Or.inl (Or.inl (Or.inl ?_))
            rw [List.any_eq_true]
            refine ⟨['a', 'u', 'g'], by simp [fixedQuals], ?_⟩
            rw [(tryPre_eq_some_iff ['a', 'u', 'g'] (c :: cs) r).mpr heq]
            simp only
            refine hstep r hqr ?_
            have := congrArg List.length heq
            simp only [List.length_cons, List.length_append, List.length_nil] at this hl ⊢
            omega
          | sus =>
            refine Or.inl (Or.inl (Or.inl ?_))
            rw [List.any_eq_true]
            refine ⟨['s', 'u', 's'], by simp [fixedQuals], ?_⟩
            rw [(tryPre_eq_some_iff ['s', 'u', 's'] (c :: cs) r).mpr heq]
            simp only
            refine hstep r hqr ?_
            have := congrArg List.length heq
            simp only [List.length_cons, List.length_append, List.length_nil] at this hl ⊢
            omega
          | sus2 =>
            refine Or.inl (Or.inl (Or.inl ?_))
            rw [List.any_eq_true]
            refine ⟨['s', 'u', 's', '2'], by simp [fixedQuals], ?_⟩
            rw [(tryPre_eq_some_iff ['s', 'u', 's', '2'] (c :: cs) r).mpr heq]
            simp only
            refine hstep r hqr ?_
            have := congrArg List.length heq
            simp only [List.length_cons, List.length_append, List.length_nil] at this hl ⊢
            omega
          | sus4 =>
            refine Or.inl (Or.inl (Or.inl ?_))
            rw [List.any_eq_true]
            refine ⟨['s', 'u', 's', '4'], by simp [fixedQuals], ?_⟩
            rw [(tryPre_eq_some_iff ['s', 'u', 's', '4'] (c :: cs) r).mpr heq]
            simp only
            refine hstep r hqr ?_
            have := congrArg List.length heq
            simp only [List.length_cons, List.length_append, List.length_nil] at this hl ⊢
            omega
          | addq ds hdne hdig =>
            refine Or.inl (Or.inl (Or.inr ?_))
            cases ds with
            | nil => exact absurd rfl hdne
            | cons d ds2 =>
              have heq2 : c :: cs = ['a', 'd', 'd'] ++ (d :: (ds2 ++ r)) := by
                rw [heq]; simp
              rw [(tryPre_eq_some_iff ['a', 'd', 'd'] (c :: cs) (d :: (ds2 ++ r))).mpr heq2]
              simp only [Bool.and_eq_true]
              refine ⟨hdig d (by simp), ?_⟩
              have hq2 : QualSeq (ds2 ++ r) :=
                qualSeq_digits_append (fun x hx => hdig x (by simp [hx])) hqr
              refine hstep (ds2 ++ r) hq2 ?_
              have := congrArg List.length heq2
              simp only [List.length_cons, List.length_append] at this hl ⊢
              omega
          | digits ds hdne hdig =>
            refine Or.inl (Or.inr ?_)
            cases q with
            | nil => exact absurd rfl hdne
            | cons d ds2 =>
              have heq2 : c :: cs = d :: (ds2 ++ r) := by rw [heq]; simp
              injection heq2 with hcd hcs2
              subst hcd
              simp only [Bool.and_eq_true]
              refine ⟨hdig c (by simp), ?_⟩
              have hq2 : QualSeq (ds2 ++ r) :=
                qualSeq_digits_append (fun x hx => hdig x (by simp [hx])) hqr
              rw [hcs2]
              refine hstep (ds2 ++ r) hq2 ?_
              have := congrArg List.length hcs2
              simp only [List.length_cons, List.length_append] at hl this ⊢
              omega
          | slash b hb =>
            refine Or.inr ?_
            have heq2 : c :: cs = '/' :: b :: r := by rw [heq]; simp
            injection heq2 with hcd hcs2
            subst hcd
            rw [if_pos rfl, hcs2]
            simp only [Bool.and_eq_true, Bool.or_eq_true]
            refine ⟨hb, Or.inl ?_⟩
            refine hstep r hqr ?_
            have := congrArg List.length hcs2
            simp only [List.length_cons] at hl this ⊢
            omega
          | slashAcc b a hb ha =>
            refine Or.inr ?_
            have heq2 : c :: cs = '/' :: b :: a :: r := by rw [heq]; simp
            injection heq2 with hcd hcs2
            subst hcd
            rw [if_pos rfl, hcs2]
            simp only [Bool.and_eq_true, Bool.or_eq_true]
            refine ⟨hb, Or.inr ?_⟩
            refine ⟨ha, ?_⟩
            refine hstep r hqr ?_
            have := congrArg List.length hcs2
            simp only [List.length_cons] at hl this ⊢
            omega

/-- The whole-token matcher decides the spec's chord-token grammar. -/
theorem matchChordToken_iff (t : List Char) :
    matchChordToken t = true ↔ ChordTokenSpec t := by
  cases t with
  | nil =>
    simp only [matchChordToken, ChordTokenSpec]
    constructor
    · intro h
      exact absurd h (by decide)
    · rintro (⟨c, r, h, _⟩ | ⟨c, a, r, h, _⟩) <;> exact List.noConfusion h
  | cons c rest =>
    cases rest with
    | nil =>
      simp only [matchChordToken, Bool.and_eq_true, ChordTokenSpec]
      constructor
      · rintro ⟨hn, _⟩
        exact Or.inl ⟨c, [], rfl, hn, QualSeq.nil⟩
      · rintro (⟨c2, r, h, hn, _⟩ | ⟨c2, a, r, h, _, _, _⟩)
        · injection h with h1 h2
          subst h1
          exact ⟨hn, by trivial⟩
        · simp at h
    | cons a rest2 =>
      simp only [matchChordToken, Bool.and_eq_true, ChordTokenSpec]
      constructor
      · rintro ⟨hn, h⟩
        by_cases hacc : accB a = true
        · rw [if_pos hacc] at h
          exact Or.inr ⟨c, a, rest2, rfl, hn, hacc,
            (matchQualsF_iff rest2.length rest2 le_rfl).mp h⟩
        · rw [if_neg hacc] at h
          exact Or.inl ⟨c, a :: rest2, rfl, hn,
            (matchQualsF_iff (a :: rest2).length (a :: rest2) le_rfl).mp h⟩
      · rintro (⟨c2, r, h, hn, hq⟩ | ⟨c2, a2, r, h, hn, hacc, hq⟩)
        · injection h with h1 h2
          subst h1
          subst h2
          refine ⟨hn, ?_⟩
          have haf : accB a = false := qualSeq_head_not_acc hq
          rw [if_neg (by simp [haf])]
          exact (matchQualsF_iff (a :: rest2).length (a :: rest2) le_rfl).mpr hq
        · injection h with h1 h2
          injection h2 with h2 h3
          subst h1
          subst h2
          subst h3
          refine ⟨hn, ?_⟩
          rw [if_pos hacc]
          exact (matchQualsF_iff rest2.length rest2 le_rfl).mpr hq

/-- **C6.** `is_chord_line` returns true iff the trimmed line is non-empty and
every whitespace-delimited token lies in the chord grammar (note letter,
optional accidental, then any sequence of `m`/`maj`/`min`/`dim`/`aug`/
`sus`/`sus2`/`sus4`/`add`-digits/bare-digits/slash-bass qualifiers); in
particular every empty or whitespace-only line is classified false. -/
theorem claim_C6_classifier (line : List Char) :
    (is_chord_line line = true ↔
      (pyStrip line ≠ [] ∧ ∀ t ∈ pySplit (pyStrip line), ChordTokenSpec t)) ∧
    (pyStrip line = [] → is_chord_line line = false) := by
  constructor
  · simp only [is_chord_line]
    by_cases h : pyStrip line = []
    · simp only [if_pos h]
      simp [h]
    · simp only [if_neg h]
      rw [List.all_eq_true]
      constructor
      · intro hall
        exact ⟨h, fun t ht => (matchChordToken_iff t).mp (hall t ht)⟩
      · intro ⟨_, hall⟩
        exact fun t ht => (matchChordToken_iff t).mpr (hall t ht)
  · intro h
    simp [is_chord_line, h]

/-! ## §4.2 Line Pairer (`separate_chords_and_text`) -/

/-- One record of the paired document: an optional chord line and the lyric
line below it (`{"chords": ..., "text": ...}` in the source). -/
structure Entry where
  chords : Option (List Char)
  text : List Char
deriving DecidableEq

/-- The pairing walk of `separate_chords_and_text`, fuel-bounded so that
the recursion is structural (the walk consumes at least one line per entry,
so fuel `ls.length` always suffices): a chord line captures the following
line as its lyric when that line is not itself a chord line (advance by 2);
otherwise it is instrumental with an empty lyric (advance by 1); a non-chord
line becomes a chord-less entry. -/
def separateLinesF : Nat → List (List Char) → List Entry
  | _, [] => []
  | 0, _ :: _ => []
  | n + 1, l :: [] =>
    if is_chord_line l then [⟨some l, []⟩]
    else ⟨none, l⟩ :: separateLinesF n []
  | n + 1, l :: l2 :: rest2 =>
    if is_chord_line l then
      (if is_chord_line l2 then ⟨some l, []⟩ :: separateLinesF n (l2 :: rest2)
       else ⟨some l, l2⟩ :: separateLinesF n rest2)
    else ⟨none, l⟩ :: separateLinesF n (l2 :: rest2)

/-- The pairing walk at its sufficient fuel. -/
def separateLines (ls : List (List Char)) : List Entry :=
  separateLinesF ls.length ls

/-- The fuel does not matter once it is at least the number of lines. -/
theorem separateLinesF_fuel_eq : ∀ (n m : Nat) (ls : List (List Char)),
    ls.length ≤ n → ls.length ≤ m → separateLinesF n ls = separateLinesF m ls := by
  intro n
  induction n with
  | zero =>
    intro m ls hn _
    cases ls with
    | nil => cases m <;> rfl
    | cons l rest => simp at hn
  | succ n ih =>
    intro m ls hn hm
    cases ls with
    | nil => cases m <;> rfl
    | cons l rest =>
      cases m with
      | zero => simp at hm
      | succ m =>
        cases rest with
        | nil =>
          simp only [separateLinesF]
        | cons l2 rest2 =>
          simp only [separateLinesF, List.length_cons] at hn hm ⊢
          rw [ih m (l2 :: rest2) (by simp; omega) (by simp; omega),
              ih m rest2 (by omega) (by omega)]

theorem separateLines_nil : separateLines [] = [] := rfl

theorem separateLines_nonchord (l : List Char) (rest : List (List Char))
    (hl : is_chord_line l = false) :
    separateLines (l :: rest) = ⟨none, l⟩ :: separateLines rest := by
  cases rest with
  | nil => simp [separateLines, separateLinesF, hl]
  | cons l2 rest2 =>
    simp only [separateLines, List.length_cons, separateLinesF, hl]
    simp

theorem separateLines_chord_single (l : List Char) (hl : is_chord_line l = true) :
    separateLines [l] = [⟨some l, []⟩] := by
  simp [separateLines, separateLinesF, hl]

theorem separateLines_chord_chord (l l2 : List Char) (rest2 : List (List Char))
    (hl : is_chord_line l = true) (hl2 : is_chord_line l2 = true) :
    separateLines (l :: l2 :: rest2) = ⟨some l, []⟩ :: separateLines (l2 :: rest2) := by
  simp only [separateLines, List.length_cons, separateLinesF, hl, hl2, if_true]

theorem separateLines_chord_lyric (l l2 : List Char) (rest2 : List (List Char))
    (hl : is_chord_line l = true) (hl2 : is_chord_line l2 = false) :
    separateLines (l :: l2 :: rest2) = ⟨some l, l2⟩ :: separateLines rest2 := by
  simp only [separateLines, List.length_cons, separateLinesF, hl, hl2, if_true]
  simp only [Bool.false_eq_true, if_false]
  rw [separateLinesF_fuel_eq (rest2.length + 1) rest2.length rest2 (by omega) le_rfl]

/-- Induction along the pairing walk. -/
theorem pairingInduction (P : List (List Char) → Prop)
    (hnil : P [])
    (hnc : ∀ l rest, is_chord_line l = false → P rest → P (l :: rest))
    (hc1 : ∀ l, is_chord_line l = true → P [l])
    (hcc : ∀ l l2 rest2, is_chord_line l = true → is_chord_line l2 = true →
        P (l2 :: rest2) → P (l :: l2 :: rest2))
    (hcl : ∀ l l2 rest2, is_chord_line l = true → is_chord_line l2 = false →
        P rest2 → P (l :: l2 :: rest2)) :
    ∀ ls, P ls := by
  have main : ∀ (n : Nat) (ls : List (List Char)), ls.length ≤ n → P ls := by
    intro n
    induction n with
    | zero =>
      intro ls h
      cases ls with
      | nil => exact hnil
      | cons l rest => simp at h
    | succ n ih =>
      intro ls h
      cases ls with
      | nil => exact hnil
      | cons l rest =>
        by_cases hl : is_chord_line l = true
        · cases rest with
          | nil => exact hc1 l hl
          | cons l2 rest2 =>
            by_cases hl2 : is_chord_line l2 = true
            · refine hcc l l2 rest2 hl hl2 (ih (l2 :: rest2) ?_)
              simp only [List.length_cons] at h ⊢
              omega
            · refine hcl l l2 rest2 hl (Bool.eq_false_iff.mpr hl2) (ih rest2 ?_)
              simp only [List.length_cons] at h ⊢
              omega
        · refine hnc l rest (Bool.eq_false_iff.mpr hl) (ih rest ?_)
          simp only [List.length_cons] at h ⊢
          omega
  exact fun ls => main ls.length ls le_rfl

/-- `separate_chords_and_text` from the source. -/
def separate_chords_and_text (text : List Char) : List Entry :=
  separateLines (splitNl text)

/-- Reassembly of one entry: its chord line if present, then its lyric line. -/
def renderEntry (e : Entry) : List (List Char) :=
  match e.chords with
  | some c => [c, e.text]
  | none => [e.text]

/-- Reassembly of a paired document into its list of lines. -/
def renderEntries (es : List Entry) : List (List Char) :=
  es.flatMap renderEntry

/-- Re-emitting a paired document as text: every entry's chord line (if
present) then its lyric line, joined by `'\n'`. -/
def reassemble (T : List Char) : List Char :=
  joinNl (renderEntries (separate_chords_and_text T))

/-- `extract_text_only` from the source: the `text` field of every entry,
joined by `'\n'`. -/
def extract_text_only (text : List Char) : List Char :=
  joinNl ((separate_chords_and_text text).map Entry.text)

theorem renderEntries_cons (e : Entry) (es : List Entry) :
    renderEntries (e :: es) = renderEntry e ++ renderEntries es := by
  simp [renderEntries]

theorem separateLines_ne_nil (ls : List (List Char)) (h : ls ≠ []) :
    separateLines ls ≠ [] := by
  cases ls with
  | nil => exact absurd rfl h
  | cons l rest =>
    by_cases hl : is_chord_line l = true
    · cases rest with
      | nil => rw [separateLines_chord_single l hl]; simp
      | cons l2 rest2 =>
        by_cases hl2 : is_chord_line l2 = true
        · rw [separateLines_chord_chord l l2 rest2 hl hl2]; simp
        · rw [separateLines_chord_lyric l l2 rest2 hl (Bool.eq_false_iff.mpr hl2)]
          simp
    · rw [separateLines_nonchord l rest (Bool.eq_false_iff.mpr hl)]; simp

/-- Every lyric text produced by the pairing walk is either empty or one of
the input lines. -/
theorem separateLines_text_mem (ls : List (List Char)) :
    ∀ e ∈ separateLines ls, e.text = [] ∨ e.text ∈ ls := by
  refine pairingInduction
    (fun ls => ∀ e ∈ separateLines ls, e.text = [] ∨ e.text ∈ ls)
    ?_ ?_ ?_ ?_ ?_ ls
  · simp [separateLines_nil]
  · intro l rest hl ih e he
    rw [separateLines_nonchord l rest hl] at he
    rcases List.mem_cons.mp he with h | h
    · subst h; exact Or.inr (by simp)
    · rcases ih e h with h2 | h2
      · exact Or.inl h2
      · exact Or.inr (List.mem_cons_of_mem l h2)
  · intro l hl e he
    rw [separateLines_chord_single l hl] at he
    rcases List.mem_cons.mp he with h | h
    · subst h; exact Or.inl rfl
    · simp at h
  · intro l l2 rest2 hl hl2 ih e he
    rw [separateLines_chord_chord l l2 rest2 hl hl2] at he
    rcases List.mem_cons.mp he with h | h
    · subst h; exact Or.inl rfl
    · rcases ih e h with h2 | h2
      · exact Or.inl h2
      · exact Or.inr (List.mem_cons_of_mem l h2)
  · intro l l2 rest2 hl hl2 ih e he
    rw [separateLines_chord_lyric l l2 rest2 hl hl2] at he
    rcases List.mem_cons.mp he with h | h
    · subst h; exact Or.inr (by simp)
    · rcases ih e h with h2 | h2
      · exact Or.inl h2
      · exact Or.inr (by simp [h2])

/-- **C10.** Every entry of the Line Pairer has, when present, a chord line
the classifier accepts, and a lyric text that is never a chord line (it is
empty or classified false). -/
theorem claim_C10_pairer_invariant (T : List Char) :
    ∀ e ∈ separate_chords_and_text T,
      (∀ c, e.chords = some c → is_chord_line c = true) ∧
      (e.text = [] ∨ is_chord_line e.text = false) := by
  have main : ∀ ls : List (List Char), ∀ e ∈ separateLines ls,
      (∀ c, e.chords = some c → is_chord_line c = true) ∧
      (e.text = [] ∨ is_chord_line e.text = false) := by
    refine pairingInduction
      (fun ls => ∀ e ∈ separateLines ls,
        (∀ c, e.chords = some c → is_chord_line c = true) ∧
        (e.text = [] ∨ is_chord_line e.text = false))
      ?_ ?_ ?_ ?_ ?_
    · simp [separateLines_nil]
    · intro l rest hl ih e he
      rw [separateLines_nonchord l rest hl] at he
      rcases List.mem_cons.mp he with h | h
      · subst h
        exact ⟨fun c hc => by simp at hc, Or.inr hl⟩
      · exact ih e h
    · intro l hl e he
      rw [separateLines_chord_single l hl] at he
      rcases List.mem_cons.mp he with h | h
      · subst h
        refine ⟨fun c hc => ?_, Or.inl rfl⟩
        injection hc with hc2
        rw [← hc2]; exact hl
      · simp at h
    · intro l l2 rest2 hl hl2 ih e he
      rw [separateLines_chord_chord l l2 rest2 hl hl2] at he
      rcases List.mem_cons.mp he with h | h
      · subst h
        refine ⟨fun c hc => ?_, Or.inl rfl⟩
        injection hc with hc2
        rw [← hc2]; exact hl
      · exact ih e h
    · intro l l2 rest2 hl hl2 ih e he
      rw [separateLines_chord_lyric l l2 rest2 hl hl2] at he
      rcases List.mem_cons.mp he with h | h
      · subst h
        refine ⟨fun c hc => ?_, Or.inr hl2⟩
        injection hc with hc2
        rw [← hc2]; exact hl
      · exact ih e h
  exact main (splitNl T)

/-- Closed witness for C10 at a concrete input. -/
theorem claim_C10_witness :
    (∀ c, (⟨some "G".toList, "Hello".toList⟩ : Entry).chords = some c →
      is_chord_line c = true) ∧
    ((⟨some "G".toList, "Hello".toList⟩ : Entry).text = [] ∨
      is_chord_line (⟨some "G".toList, "Hello".toList⟩ : Entry).text = false) :=
  claim_C10_pairer_invariant "G\nHello".toList
    ⟨some "G".toList, "Hello".toList⟩ (by decide)

/-- **C8.** Lyric-only extraction produces exactly one line per pairer entry:
splitting `extract_text_only T` on newlines recovers the entries' lyric
fields in order (empty strings included), so the line count equals the
entry count. -/
theorem claim_C8_extraction_line_count (T : List Char) :
    splitNl (extract_text_only T) = (separate_chords_and_text T).map Entry.text ∧
    (splitNl (extract_text_only T)).length = (separate_chords_and_text T).length := by
  have h1 : (separate_chords_and_text T).map Entry.text ≠ [] := by
    intro h
    exact separateLines_ne_nil (splitNl T) (splitNl_ne_nil T)
      (List.map_eq_nil_iff.mp h)
  have h2 : ∀ l ∈ (separate_chords_and_text T).map Entry.text, '\n' ∉ l := by
    intro l hl
    rcases List.mem_map.mp hl with ⟨e, he, hmap⟩
    rcases separateLines_text_mem (splitNl T) e he with h | h
    · rw [← hmap, h]; simp
    · rw [← hmap]
      exact newline_not_mem_splitNl T e.text h
  have hsplit : splitNl (extract_text_only T)
      = (separate_chords_and_text T).map Entry.text :=
    splitNl_joinNl _ h1 h2
  exact ⟨hsplit, by rw [hsplit]; simp⟩

/-! ### C2: the pairing round-trip -/

/-- A list of lines in which every chord line is immediately followed by a
non-chord line (no instrumental chord entries arise when pairing it). -/
def wellPaired : List (List Char) → Bool
  | [] => true
  | l :: [] => !is_chord_line l
  | l :: l2 :: rest2 =>
    if is_chord_line l then !is_chord_line l2 && wellPaired rest2
    else wellPaired (l2 :: rest2)

/-- **C2, counterexample.** The round-trip fails as stated on an input made
of two consecutive chord lines: `"G\nAm"` reassembles to `"G\n\nAm\n"`,
because each instrumental chord entry re-emits an extra empty lyric line. -/
theorem claim_C2_cex : reassemble "G\nAm".toList ≠ "G\nAm".toList := by decide

/-- **C2, amended.** Reassembling the Line Pairer's output (chords line if
present, then lyric line, joined by newlines) reproduces `T` exactly for
every `T` in which each chord line is immediately followed by a non-chord
line; inputs ending in, or containing consecutive, chord lines instead gain
one empty line per instrumental entry. -/
theorem claim_C2_roundtrip (T : List Char)
    (h : wellPaired (splitNl T) = true) : reassemble T = T := by
  have main : ∀ ls : List (List Char), wellPaired ls = true →
      renderEntries (separateLines ls) = ls := by
    refine pairingInduction
      (fun ls => wellPaired ls = true → renderEntries (separateLines ls) = ls)
      ?_ ?_ ?_ ?_ ?_
    · intro _
      simp [separateLines_nil, renderEntries]
    · intro l rest hl ih hw
      rw [separateLines_nonchord l rest hl, renderEntries_cons]
      have hwr : wellPaired rest = true := by
        cases rest with
        | nil => rfl
        | cons l2 rest2 =>
          simp only [wellPaired, hl] at hw
          simpa [Bool.false_eq_true] using hw
      rw [ih hwr]
      rfl
    · intro l hl hw
      simp only [wellPaired, hl] at hw
      simp at hw
    · intro l l2 rest2 hl hl2 _ hw
      simp only [wellPaired, hl, hl2, if_true] at hw
      simp at hw
    · intro l l2 rest2 hl hl2 ih hw
      rw [separateLines_chord_lyric l l2 rest2 hl hl2, renderEntries_cons]
      have hwr : wellPaired rest2 = true := by
        simp only [wellPaired, hl, hl2, if_true, Bool.and_eq_true] at hw
        exact hw.2
      rw [ih hwr]
      rfl
  unfold reassemble separate_chords_and_text
  rw [main (splitNl T) h, joinNl_splitNl]

/-- Closed witness for the amended C2 at a concrete chord-and-lyric text. -/
theorem claim_C2_witness :
    reassemble "G   Am  C\nTake me home".toList = "G   Am  C\nTake me home".toList :=
  claim_C2_roundtrip "G   Am  C\nTake me home".toList (by decide)

/-- Closed witness for C6: the theorem's empty-line clause at the empty line. -/
theorem claim_C6_witness : is_chord_line [] = false :=
  (claim_C6_classifier []).2 rfl

/-! ## §4.5 Position Mapper (`_extract_chord_positions`, `_snap_to_boundary`,
`_place_chords`) -/

/-- Not the space character (the token/separator test of
`_extract_chord_positions`, which splits on `' '` only). -/
def nonSp (d : Char) : Bool := d ≠ ' '

/-- `_extract_chord_positions`, fuel-bounded (fuel `line.length` suffices):
collect `(start column, token)` for every maximal run of non-space
characters, scanning left to right. -/
def extractPosF : Nat → List Char → Nat → List (Nat × List Char)
  | _, [], _ => []
  | 0, _ :: _, _ => []
  | n + 1, c :: rest, i =>
    if c = ' ' then extractPosF n rest (i + 1)
    else
      (i, c :: rest.takeWhile nonSp)
        :: extractPosF n (rest.dropWhile nonSp) (i + 1 + (rest.takeWhile nonSp).length)

/-- `_extract_chord_positions` from the source. -/
def _extract_chord_positions (line : List Char) : List (Nat × List Char) :=
  extractPosF line.length line 0

/-- The left scan of `_snap_to_boundary`:
`while left > 0 and text[left-1] != " ": left -= 1`. -/
def scanLeft (text : List Char) : Nat → Nat
  | 0 => 0
  | l + 1 => if text.getD l ' ' ≠ ' ' then scanLeft text l else l + 1

/-- The right scan of `_snap_to_boundary`, fuel-bounded:
`while right < len(text) and text[right-1] != " ": right += 1`. -/
def scanRightF : Nat → List Char → Nat → Nat
  | 0, _, r => r
  | n + 1, text, r =>
    if r < text.length && (text.getD (r - 1) ' ' != ' ') then
      scanRightF n text (r + 1)
    else r

/-- The right scan at its sufficient fuel (`text.length` bounds the number
of `right += 1` steps, since the scan stops at `right = len(text)`). -/
def scanRight (text : List Char) (r : Nat) : Nat :=
  scanRightF text.length text r

/-- `_snap_to_boundary` from the source: clamp to `[0, len(text)]`, keep
word starts, otherwise move to the nearer of the scans (ties to the left). -/
def _snap_to_boundary (text : List Char) (pos : Nat) : Nat :=
  if pos = 0 then 0
  else if text.length ≤ pos then text.length
  else if text.getD (pos - 1) ' ' = ' ' then pos
  else
    let left := scanLeft text pos
    let right := scanRight text pos
    if pos - left ≤ right - pos then left else right

/-- The collision test of `_place_chords`:
`any(chord_line[pos + k] != " " for k in range(len(chord)) if pos + k < len(chord_line))`. -/
def collides (buf : List Char) (lenc pos : Nat) : Bool :=
  (List.range lenc).any fun k => pos + k < buf.length && (buf.getD (pos + k) ' ' != ' ')

/-- The collision-avoidance loop of `_place_chords`, fuel-bounded:
`while collides: pos += 1; if pos >= len(chord_line) - len(chord): break`.
Fuel `buf.length` suffices because the loop advances `pos` only while
`pos + 1 < buf.length - lenc`. -/
def findFreeF : Nat → List Char → Nat → Nat → Nat
  | 0, _, _, pos => pos
  | n + 1, buf, lenc, pos =>
    if collides buf lenc pos then
      (if buf.length - lenc ≤ pos + 1 then pos + 1
       else findFreeF n buf lenc (pos + 1))
    else pos

/-- The collision-avoidance loop at its sufficient fuel. -/
def findFree (buf : List Char) (lenc pos : Nat) : Nat :=
  findFreeF buf.length buf lenc pos

/-- The write loop of `_place_chords`: put the token's characters into the
buffer starting at `pos`, dropping characters that fall past the buffer
(`List.set` is a no-op out of range, like the source's bounds guard). -/
def writeTok : List Char → Nat → List Char → List Char
  | buf, _, [] => buf
  | buf, pos, c :: cs => writeTok (buf.set pos c) (pos + 1) cs

/-- One placement step of `_place_chords`' main loop: clamp the snapped
position into the buffer, search a free slot, write the token. -/
def placeStep (buf : List Char) (s : Nat) (tok : List Char) : List Char :=
  writeTok buf (findFree buf tok.length (min s (buf.length - tok.length))) tok

/-- The main loop of `_place_chords` over the remapped positions. -/
def placeLoop : List Char → List (Nat × List Char) → List Char
  | buf, [] => buf
  | buf, (s, tok) :: rest => placeLoop (placeStep buf s tok) rest

/-- `_place_chords` from the source.  (`int(pos * new_len / old_len)`
truncates a nonnegative quotient, i.e. is `Nat` division at these sizes.) -/
def _place_chords (ps : List (Nat × List Char))
    (originalLine newLine : List Char) : List Char :=
  if ps = [] then []
  else
    let oldLen := max originalLine.length 1
    let newLen := max newLine.length 1
    let nps := ps.map fun pt => (_snap_to_boundary newLine (pt.1 * newLen / oldLen), pt.2)
    rstrip (placeLoop (List.replicate (newLen + 10) ' ') nps)

/-- The columns at which `_place_chords`' loop actually writes each token,
in input order (instrumentation of `placeLoop`). -/
def placeTrace : List Char → List (Nat × List Char) → List Nat
  | _, [] => []
  | buf, (s, tok) :: rest =>
    findFree buf tok.length (min s (buf.length - tok.length))
      :: placeTrace (placeStep buf s tok) rest

/-- The placed columns of `_place_chords` for the given inputs. -/
def placePositions (ps : List (Nat × List Char))
    (originalLine newLine : List Char) : List Nat :=
  let oldLen := max originalLine.length 1
  let newLen := max newLine.length 1
  let nps := ps.map fun pt => (_snap_to_boundary newLine (pt.1 * newLen / oldLen), pt.2)
  placeTrace (List.replicate (newLen + 10) ' ') nps

/-- A placement run is *clean* when every token is written into a slot that
is wholly inside the buffer and free at write time (no truncation at the
buffer edge, no collision-search cap, no clamping out of range). -/
def placeCleanLoop : List Char → List (Nat × List Char) → Bool
  | _, [] => true
  | buf, (s, tok) :: rest =>
    let q := findFree buf tok.length (min s (buf.length - tok.length))
    (decide (s + tok.length ≤ buf.length) && !collides buf tok.length q &&
        decide (q + tok.length ≤ buf.length)) &&
      placeCleanLoop (placeStep buf s tok) rest

/-- Cleanness of the whole `_place_chords` run on the given inputs. -/
def placeClean (ps : List (Nat × List Char))
    (originalLine newLine : List Char) : Bool :=
  let oldLen := max originalLine.length 1
  let newLen := max newLine.length 1
  let nps := ps.map fun pt => (_snap_to_boundary newLine (pt.1 * newLen / oldLen), pt.2)
  placeCleanLoop (List.replicate (newLen + 10) ' ') nps

/-! ### Buffer lemmas for the placement loop -/

theorem writeTok_length (tok : List Char) : ∀ (buf : List Char) (pos : Nat),
    (writeTok buf pos tok).length = buf.length := by
  induction tok with
  | nil => intro buf pos; rfl
  | cons c cs ih =>
    intro buf pos
    simp only [writeTok, ih, List.length_set]

theorem getD_set (buf : List Char) (k : Nat) (c : Char) (j : Nat) :
    (buf.set k c).getD j ' ' =
      if j = k ∧ k < buf.length then c else buf.getD j ' ' := by
  rw [List.getD_eq_getElem?_getD, List.getD_eq_getElem?_getD, List.getElem?_set]
  by_cases hjk : k = j
  · subst hjk
    by_cases hk : k < buf.length
    · simp [hk]
    · simp only [hk, if_false, and_false, if_false]
      rw [List.getElem?_eq_none (by omega)]
      simp
  · have hne : ¬(j = k ∧ k < buf.length) := fun h => hjk h.1.symm
    simp [hjk, hne]

/-- Writing a token that fits inside the buffer: the written window holds
the token, everything else is unchanged. -/
theorem writeTok_getD_fit (tok : List Char) : ∀ (buf : List Char) (pos : Nat),
    pos + tok.length ≤ buf.length → ∀ j,
    (writeTok buf pos tok).getD j ' ' =
      if pos ≤ j ∧ j < pos + tok.length then tok.getD (j - pos) ' '
      else buf.getD j ' ' := by
  induction tok with
  | nil =>
    intro buf pos _ j
    have hne : ¬(pos ≤ j ∧ j < pos + ([] : List Char).length) := by
      simp only [List.length_nil]
      omega
    rw [if_neg hne]
    rfl
  | cons c cs ih =>
    intro buf pos hfit j
    simp only [List.length_cons] at hfit
    simp only [writeTok]
    rw [ih (buf.set pos c) (pos + 1) (by simp; omega) j]
    by_cases h1 : pos + 1 ≤ j ∧ j < pos + 1 + cs.length
    · rw [if_pos h1, if_pos (by simp only [List.length_cons]; omega)]
      have : j - pos = (j - (pos + 1)) + 1 := by omega
      rw [this]
      simp
    · rw [if_neg h1, getD_set]
      by_cases h2 : j = pos
      · rw [if_pos ⟨h2, by omega⟩, if_pos (by simp only [List.length_cons]; omega)]
        subst h2
        simp
      · rw [if_neg (by intro hh; exact h2 hh.1),
            if_neg (by simp only [List.length_cons]; omega)]

theorem collides_eq_false_of_free (buf : List Char) (lenc pos : Nat)
    (h : ∀ k, k < lenc → buf.getD (pos + k) ' ' = ' ') :
    collides buf lenc pos = false := by
  simp only [collides, List.any_eq_false]
  intro k hk
  rw [List.mem_range] at hk
  by_cases hb : pos + k < buf.length
  · have hh := h k hk
    rw [List.getD_eq_getElem _ _ hb] at hh
    simp [hb, hh]
  · simp [hb]

theorem findFreeF_no_collision (n : Nat) (buf : List Char) (lenc pos : Nat)
    (h : collides buf lenc pos = false) : findFreeF n buf lenc pos = pos := by
  cases n with
  | zero => rfl
  | succ n => simp [findFreeF, h]

theorem findFree_no_collision (buf : List Char) (lenc pos : Nat)
    (h : collides buf lenc pos = false) : findFree buf lenc pos = pos :=
  findFreeF_no_collision buf.length buf lenc pos h

theorem takeWhile_getD (p : Char → Bool) (l : List Char) :
    ∀ k, k < (l.takeWhile p).length → (l.takeWhile p).getD k ' ' = l.getD k ' ' := by
  induction l with
  | nil =>
    intro k hk
    exact absurd hk (by simp)
  | cons c cs ih =>
    intro k hk
    rw [List.takeWhile_cons] at hk ⊢
    by_cases hc : p c = true
    · rw [if_pos hc] at hk ⊢
      cases k with
      | zero => rfl
      | succ k =>
        simp only [List.length_cons] at hk
        simp only [List.getD_cons_succ]
        exact ih k (by omega)
    · rw [if_neg hc] at hk
      simp at hk

theorem length_takeWhile_le (p : Char → Bool) (l : List Char) :
    (l.takeWhile p).length ≤ l.length := by
  induction l with
  | nil => simp
  | cons c cs ih =>
    rw [List.takeWhile_cons]
    split
    · simp only [List.length_cons]
      omega
    · simp

theorem getD_append_plus (a b : List Char) (k : Nat) :
    (a ++ b).getD (a.length + k) ' ' = b.getD k ' ' := by
  induction a with
  | nil => simp
  | cons c cs ih =>
    simp only [List.cons_append, List.length_cons]
    have : cs.length + 1 + k = (cs.length + k) + 1 := by omega
    rw [this, List.getD_cons_succ, ih]

theorem dropWhile_all_ws (m : List Char) (h : ∀ c ∈ m, pyIsSpace c = true) :
    m.dropWhile pyIsSpace = [] := by
  induction m with
  | nil => rfl
  | cons c cs ih =>
    rw [List.dropWhile_cons, if_pos (h c (by simp))]
    exact ih fun c hc => h c (by simp [hc])

theorem dropWhile_append_all_ws (a b : List Char) (h : ∀ c ∈ a, pyIsSpace c = true) :
    (a ++ b).dropWhile pyIsSpace = b.dropWhile pyIsSpace := by
  induction a with
  | nil => simp
  | cons c cs ih =>
    rw [List.cons_append, List.dropWhile_cons, if_pos (h c (by simp))]
    exact ih fun c hc => h c (by simp [hc])

theorem rstrip_append_spaces (l : List Char) (n : Nat) :
    rstrip (l ++ List.replicate n ' ') = rstrip l := by
  unfold rstrip
  rw [List.reverse_append, List.reverse_replicate,
      dropWhile_append_all_ws _ _ (fun c hc => by
        rw [List.eq_of_mem_replicate hc]; rfl)]

theorem rstrip_all_spaces (l : List Char) (h : ∀ c ∈ l, c = ' ') :
    rstrip l = [] := by
  unfold rstrip
  rw [dropWhile_all_ws _ (fun c hc => by
    rw [h c (List.mem_reverse.mp hc)]; rfl)]
  rfl

theorem eq_append_replicate_of_padEq (A B : List Char) (hlen : A.length ≤ B.length)
    (h : ∀ j, A.getD j ' ' = B.getD j ' ') :
    B = A ++ List.replicate (B.length - A.length) ' ' := by
  apply List.ext_getElem
  · simp
    omega
  · intro j hj1 hj2
    have hB : B[j] = B.getD j ' ' := (List.getD_eq_getElem B ' ' hj1).symm
    by_cases hA : j < A.length
    · rw [hB, ← h j, List.getD_eq_getElem A ' ' hA]
      rw [List.getElem_append_left hA]
    · rw [hB, ← h j, List.getD_eq_default A ' ' (by omega)]
      rw [List.getElem_append_right (by omega)]
      simp

theorem rstrip_eq_of_padEq (A B : List Char)
    (h : ∀ j, A.getD j ' ' = B.getD j ' ') : rstrip A = rstrip B := by
  rcases le_total A.length B.length with hl | hl
  · rw [eq_append_replicate_of_padEq A B hl h, rstrip_append_spaces]
  · rw [eq_append_replicate_of_padEq B A hl (fun j => (h j).symm), rstrip_append_spaces]

/-- An empty extraction means the line is all spaces. -/
theorem extractPosF_eq_nil_all_spaces : ∀ (n : Nat) (sub : List Char) (i : Nat),
    sub.length ≤ n → extractPosF n sub i = [] → ∀ c ∈ sub, c = ' ' := by
  intro n
  induction n with
  | zero =>
    intro sub i hn _
    cases sub with
    | nil => simp
    | cons c cs => simp at hn
  | succ n ih =>
    intro sub i hn hext
    cases sub with
    | nil => simp
    | cons c cs =>
      simp only [extractPosF] at hext
      by_cases hc : c = ' '
      · subst hc
        rw [if_pos rfl] at hext
        intro d hd
        rcases List.mem_cons.mp hd with h | h
        · exact h
        · exact ih cs (i + 1) (by simp only [List.length_cons] at hn; omega) hext d h
      · rw [if_neg hc] at hext
        exact absurd hext (by simp)

/-- The heart of C3: placing the extracted tokens of `sub` (at their own
columns, unmoved) onto a buffer whose cells from column `i` on are free
reproduces `sub`'s characters cell by cell. -/
theorem placeLoop_extract : ∀ (n : Nat) (sub : List Char) (i : Nat) (buf : List Char),
    sub.length ≤ n →
    (∀ pt ∈ extractPosF n sub i, pt.1 + pt.2.length ≤ buf.length) →
    (∀ j, i ≤ j → buf.getD j ' ' = ' ') →
    ∀ j, (placeLoop buf (extractPosF n sub i)).getD j ' ' =
      if i ≤ j then (if j - i < sub.length then sub.getD (j - i) ' ' else ' ')
      else buf.getD j ' ' := by
  intro n
  induction n with
  | zero =>
    intro sub i buf hn _ hfree j
    cases sub with
    | cons c cs => simp at hn
    | nil =>
      show buf.getD j ' ' = _
      by_cases hij : i ≤ j
      · rw [if_pos hij, if_neg (by simp), hfree j hij]
      · rw [if_neg hij]
  | succ n ih =>
    intro sub i buf hn hfit hfree j
    cases sub with
    | nil =>
      show buf.getD j ' ' = _
      by_cases hij : i ≤ j
      · rw [if_pos hij, if_neg (by simp), hfree j hij]
      · rw [if_neg hij]
    | cons c cs =>
      simp only [extractPosF]
      by_cases hc : c = ' '
      · rw [if_pos hc]
        simp only [extractPosF, if_pos hc] at hfit
        rw [ih cs (i + 1) buf (by simp only [List.length_cons] at hn; omega) hfit
            (fun j hj => hfree j (by omega)) j]
        by_cases hij : i ≤ j
        · rw [if_pos hij]
          by_cases hij2 : i + 1 ≤ j
          · rw [if_pos hij2]
            by_cases hlt : j - (i + 1) < cs.length
            · rw [if_pos hlt, if_pos (by simp only [List.length_cons]; omega)]
              have : j - i = (j - (i + 1)) + 1 := by omega
              rw [this, List.getD_cons_succ]
            · rw [if_neg hlt, if_neg (by simp only [List.length_cons]; omega)]
          · have hji : j = i := by omega
            rw [if_neg hij2, if_pos (by simp only [List.length_cons]; omega)]
            subst hji
            rw [Nat.sub_self, List.getD_cons_zero, hc]
            exact hfree j le_rfl
        · rw [if_neg hij, if_neg (by omega)]
      · rw [if_neg hc]
        simp only [extractPosF, if_neg hc] at hfit
        set tk := cs.takeWhile nonSp with htk
        set dropped := cs.dropWhile nonSp with hdrop
        have hfit0 : i + (c :: tk).length ≤ buf.length := hfit (i, c :: tk) (by simp)
        have hstep : placeStep buf i (c :: tk) = writeTok buf i (c :: tk) := by
          unfold placeStep
          rw [Nat.min_eq_left (by omega),
              findFree_no_collision buf (c :: tk).length i
                (collides_eq_false_of_free buf (c :: tk).length i
                  (fun k hk => hfree (i + k) (by omega)))]
        simp only [placeLoop, hstep]
        have hlen' : (writeTok buf i (c :: tk)).length = buf.length :=
          writeTok_length (c :: tk) buf i
        have hwcell := writeTok_getD_fit (c :: tk) buf i hfit0
        have hdlen : dropped.length ≤ n := by
          have h2 : dropped.length ≤ cs.length := by
            rw [hdrop]
            exact length_dropWhile_le nonSp cs
          simp only [List.length_cons] at hn
          omega
        rw [ih dropped (i + 1 + tk.length) (writeTok buf i (c :: tk)) hdlen
            (fun pt hpt => by rw [hlen']; exact hfit pt (List.mem_cons_of_mem _ hpt))
            (fun j2 hj2 => by
              rw [hwcell j2,
                  if_neg (by simp only [List.length_cons]; omega),
                  hfree j2 (by omega)])
            j]
        have hsubsplit : cs = tk ++ dropped := (List.takeWhile_append_dropWhile _ _).symm
        have htklen : tk.length ≤ cs.length := by
          rw [htk]; exact length_takeWhile_le _ cs
        by_cases hij : i ≤ j
        · by_cases hij' : i + 1 + tk.length ≤ j
          · rw [if_pos hij', if_pos hij]
            have hsublen : (c :: cs).length = 1 + tk.length + dropped.length := by
              simp only [List.length_cons]
              conv_lhs => rw [hsubsplit]
              simp only [List.length_append]
              omega
            by_cases hlt : j - (i + 1 + tk.length) < dropped.length
            · rw [if_pos hlt, if_pos (by omega)]
              have hval : (c :: cs).getD (j - i) ' '
                  = dropped.getD (j - (i + 1 + tk.length)) ' ' := by
                conv_lhs => rw [hsubsplit]
                have hidx : j - i = (tk.length + (j - (i + 1 + tk.length))) + 1 := by omega
                rw [hidx, List.getD_cons_succ, getD_append_plus]
              rw [hval]
            · rw [if_neg hlt, if_neg (by omega)]
          · rw [if_neg hij', if_pos hij,
                if_pos (by simp only [List.length_cons]; omega)]
            rw [hwcell j,
                if_pos ⟨hij, by simp only [List.length_cons]; omega⟩]
            cases hji2 : j - i with
            | zero => rw [List.getD_cons_zero, List.getD_cons_zero]
            | succ k =>
              simp only [List.getD_cons_succ]
              rw [htk, takeWhile_getD nonSp cs k (by rw [← htk]; omega)]
        · have h1 : ¬ i + 1 + tk.length ≤ j := by omega
          rw [if_neg h1, if_neg hij, hwcell j,
              if_neg (by simp only [List.length_cons]; omega)]

theorem getD_replicate_space (n j : Nat) :
    (List.replicate n ' ').getD j ' ' = ' ' := by
  by_cases h : j < n
  · rw [List.getD_eq_getElem _ _ (by simpa using h)]
    simp
  · rw [List.getD_eq_default _ _ (by simp; omega)]

theorem place_chords_eq (ps : List (Nat × List Char)) (o ne : List Char)
    (h : ps ≠ []) :
    _place_chords ps o ne =
      rstrip (placeLoop (List.replicate (max ne.length 1 + 10) ' ')
        (ps.map fun pt =>
          (_snap_to_boundary ne (pt.1 * max ne.length 1 / max o.length 1), pt.2))) := by
  simp only [_place_chords, if_neg h]

/-- **C3, counterexample.** For the paired chord line `"  G"` above the lyric
line `"abcd"`, re-placing the chords onto the unchanged line does *not*
reproduce the chord line: the column-2 chord is snapped to the boundary at
column 0 of `"abcd"`, so the output is `"G"` and not `"  G"`. -/
theorem claim_C3_cex :
    is_chord_line "  G".toList = true ∧ is_chord_line "abcd".toList = false ∧
    _place_chords (_extract_chord_positions "  G".toList) "abcd".toList "abcd".toList
      ≠ rstrip "  G".toList :=
  ⟨by decide, by decide, by decide⟩

/-- **C3, amended.** Re-placing a chord line's extracted chords onto the
unchanged lyric line `L` reproduces the chord line up to trailing-space
trimming, *provided* every chord's column is a position that boundary
snapping against `L` leaves fixed (a word boundary of `L`) and every chord
lies within the placement buffer `len(L) + 10`; a chord starting mid-word
of `L` is otherwise moved to the nearest word boundary. -/
theorem claim_C3_place_idempotent (C L : List Char)
    (hsnap : ∀ pt ∈ _extract_chord_positions C, _snap_to_boundary L pt.1 = pt.1)
    (hfit : ∀ pt ∈ _extract_chord_positions C, pt.1 + pt.2.length ≤ L.length + 10) :
    _place_chords (_extract_chord_positions C) L L = rstrip C := by
  by_cases hnil : _extract_chord_positions C = []
  · rw [hnil]
    have h1 : _place_chords [] L L = [] := by simp [_place_chords]
    rw [h1]
    exact (rstrip_all_spaces C
      (extractPosF_eq_nil_all_spaces C.length C 0 le_rfl hnil)).symm
  · rw [place_chords_eq _ _ _ hnil]
    have hmap : ((_extract_chord_positions C).map fun pt =>
        (_snap_to_boundary L (pt.1 * max L.length 1 / max L.length 1), pt.2))
        = _extract_chord_positions C := by
      conv_rhs => rw [← List.map_id (_extract_chord_positions C)]
      apply List.map_congr_left
      intro pt hpt
      rw [Nat.mul_div_cancel _ (by omega : 0 < max L.length 1), hsnap pt hpt]
      rfl
    rw [hmap]
    apply rstrip_eq_of_padEq
    intro j
    rw [show _extract_chord_positions C = extractPosF C.length C 0 from rfl]
    rw [placeLoop_extract C.length C 0 (List.replicate (max L.length 1 + 10) ' ')
        le_rfl
        (fun pt hpt => by
          rw [List.length_replicate]
          have := hfit pt hpt
          omega)
        (fun j2 _ => getD_replicate_space _ j2) j]
    rw [if_pos (Nat.zero_le j), Nat.sub_zero]
    by_cases hj : j < C.length
    · rw [if_pos hj]
    · rw [if_neg hj, List.getD_eq_default _ _ (by omega)]

/-- Closed witness for the amended C3: chords at word boundaries of the
unchanged line return to their columns exactly. -/
theorem claim_C3_witness :
    _place_chords (_extract_chord_positions "G  Am".toList)
        "Hi there".toList "Hi there".toList
      = rstrip "G  Am".toList :=
  claim_C3_place_idempotent "G  Am".toList "Hi there".toList (by decide) (by decide)

/-! ## §4.6 Realignment Orchestrator (`realign_chords`,
`replace_line_with_chords`) -/

/-- The walk of `realign_chords` over the paired entries, carrying the
cursor `rewrite_idx` into the rewritten lines; the trailing loop appends
all leftover rewritten lines verbatim. -/
def realignLoop (newLines : List (List Char)) : List Entry → Nat → List (List Char)
  | [], idx => newLines.drop idx
  | e :: es, idx =>
    match e.chords with
    | some chordLine =>
      if idx < newLines.length then
        let newLine := newLines.getD idx []
        if pyStrip newLine = [] then
          chordLine :: newLine :: realignLoop newLines es (idx + 1)
        else
          _place_chords (_extract_chord_positions chordLine) e.text newLine
            :: newLine :: realignLoop newLines es (idx + 1)
      else
        chordLine :: [] :: realignLoop newLines es idx
    | none =>
      if idx < newLines.length then
        newLines.getD idx [] :: realignLoop newLines es (idx + 1)
      else
        e.text :: realignLoop newLines es idx

/-- `realign_chords` from the source. -/
def realign_chords (originalText rewrittenContent : List Char) : List Char :=
  joinNl (realignLoop (splitNl rewrittenContent)
    (separate_chords_and_text originalText) 0)

/-- The entry-level realignment walk, started at cursor 0. -/
def realignEntries (es : List Entry) (newLines : List (List Char)) :
    List (List Char) :=
  realignLoop newLines es 0

/-- Advancing the cursor into a nonempty rewritten-lines list is the same
as dropping its head: the walk only reads lines at or after the cursor. -/
theorem realignLoop_shift (x : List Char) (xs : List (List Char)) :
    ∀ (es : List Entry) (idx : Nat),
      realignLoop (x :: xs) es (idx + 1) = realignLoop xs es idx := by
  intro es
  induction es with
  | nil => intro idx; rfl
  | cons e es ih =>
    intro idx
    cases hch : e.chords with
    | some chordLine =>
      simp only [realignLoop, hch]
      by_cases hidx : idx < xs.length
      · rw [if_pos (by simp only [List.length_cons]; omega), if_pos hidx,
            List.getD_cons_succ, ih (idx + 1)]
      · rw [if_neg (by simp only [List.length_cons]; omega), if_neg hidx, ih idx]
    | none =>
      simp only [realignLoop, hch]
      by_cases hidx : idx < xs.length
      · rw [if_pos (by simp only [List.length_cons]; omega), if_pos hidx,
            List.getD_cons_succ, ih (idx + 1)]
      · rw [if_neg (by simp only [List.length_cons]; omega), if_neg hidx, ih idx]

/-- **C7.** The behavioural equations of whole-document realignment: every
entry consumes exactly one rewritten line in order; a chord entry whose
rewritten line is blank re-emits its chord line unchanged above that line;
when the rewritten lines run out, a non-chord entry falls back to its
original lyric text while a chord entry emits its chord line over an empty
lyric; leftover rewritten lines are appended verbatim with no chord lines;
and `realign_chords` is exactly this walk over the paired document, joined
by newlines. -/
theorem claim_C7_realign_behaviour :
    (∀ ns : List (List Char), realignEntries [] ns = ns) ∧
    (∀ (c t : List Char) (es : List Entry) (n : List Char) (ns : List (List Char)),
      realignEntries (⟨some c, t⟩ :: es) (n :: ns) =
        (if pyStrip n = [] then c
         else _place_chords (_extract_chord_positions c) t n)
          :: n :: realignEntries es ns) ∧
    (∀ (t : List Char) (es : List Entry) (n : List Char) (ns : List (List Char)),
      realignEntries (⟨none, t⟩ :: es) (n :: ns) = n :: realignEntries es ns) ∧
    (∀ (c t : List Char) (es : List Entry),
      realignEntries (⟨some c, t⟩ :: es) [] = c :: [] :: realignEntries es []) ∧
    (∀ (t : List Char) (es : List Entry),
      realignEntries (⟨none, t⟩ :: es) [] = t :: realignEntries es []) ∧
    (∀ originalText rewrittenContent : List Char,
      realign_chords originalText rewrittenContent =
        joinNl (realignEntries (separate_chords_and_text originalText)
          (splitNl rewrittenContent))) := by
  refine ⟨?_, ?_, ?_, ?_, ?_, ?_⟩
  · intro ns
    simp [realignEntries, realignLoop]
  · intro c t es n ns
    simp only [realignEntries, realignLoop]
    have hlen : 0 < (n :: ns).length := by simp
    rw [if_pos hlen]
    simp only [List.getD_cons_zero]
    rw [realignLoop_shift n ns es 0]
    by_cases hb : pyStrip n = [] <;> simp [hb]
  · intro t es n ns
    simp only [realignEntries, realignLoop]
    have hlen : 0 < (n :: ns).length := by simp
    rw [if_pos hlen]
    simp only [List.getD_cons_zero]
    rw [realignLoop_shift n ns es 0]
  · intro c t es
    simp only [realignEntries, realignLoop]
    rw [if_neg (by simp)]
  · intro t es
    simp only [realignEntries, realignLoop]
    rw [if_neg (by simp)]
  · intro o r
    rfl

/-- The index-searching loop of `replace_line_with_chords`: walk `idx` over
`range(len(parsed))`, breaking when `text_count == text_line_index` (the
counter increments once per non-matching entry, so it always equals `idx`).
Returns the found entry index and the final counter. -/
def findTargetLoop (tli : Nat) : Nat → Nat → Option Nat × Nat
  | 0, start => (none, start)
  | n + 1, start =>
    if start = tli then (some start, start)
    else findTargetLoop tli n (start + 1)

/-- The search over all `numEntries` entries, from index and counter 0. -/
def findTarget (numEntries tli : Nat) : Option Nat × Nat :=
  findTargetLoop tli numEntries 0

theorem findTargetLoop_eq (tli : Nat) : ∀ (fuel start : Nat), start ≤ tli →
    findTargetLoop tli fuel start =
      if tli < start + fuel then (some tli, tli) else (none, start + fuel) := by
  intro fuel
  induction fuel with
  | zero =>
    intro start hs
    simp only [findTargetLoop]
    rw [if_neg (by omega), Nat.add_zero]
  | succ n ih =>
    intro start hs
    simp only [findTargetLoop]
    by_cases h : start = tli
    · subst h
      rw [if_pos rfl, if_pos (by omega)]
    · rw [if_neg h, ih (start + 1) (by omega)]
      by_cases h2 : tli < start + (n + 1)
      · rw [if_pos (by omega), if_pos h2]
      · rw [if_neg (by omega), if_neg h2]
        have : start + 1 + n = start + (n + 1) := by omega
        rw [this]

theorem findTarget_eq (numEntries tli : Nat) :
    findTarget numEntries tli =
      if tli < numEntries then (some tli, tli) else (none, numEntries) := by
  unfold findTarget
  rw [findTargetLoop_eq tli numEntries 0 (Nat.zero_le tli)]
  simp

/-- `replace_line_with_chords` from the source; the raised `IndexError`
becomes the `Except.error` case carrying the message string. -/
def replace_line_with_chords (fullText : List Char) (textLineIndex : Nat)
    (newLineText : List Char) : Except (List Char) (List Char) :=
  let parsed := separate_chords_and_text fullText
  match (findTarget parsed.length textLineIndex).1 with
  | none =>
    let maxIdx := (findTarget parsed.length textLineIndex).2 - 1
    .error ("Text line index ".toList ++ (Nat.repr textLineIndex).toList
      ++ " out of range (max ".toList ++ (Nat.repr maxIdx).toList ++ ")".toList)
  | some targetIdx =>
    let entry := parsed.getD targetIdx ⟨none, []⟩
    let newChords :=
      match entry.chords with
      | some cl =>
        if pyStrip newLineText ≠ [] then
          some (_place_chords (_extract_chord_positions cl) entry.text newLineText)
        else some cl
      | none => none
    .ok (joinNl (renderEntries (parsed.set targetIdx ⟨newChords, newLineText⟩)))

/-- **C4.** Single-line replacement succeeds for every index below the
number of paired entries (all entries counted, chord and non-chord alike)
and raises the out-of-range error for every index at or beyond it, with the
valid maximum index (entry count minus one) spelled out in the message. -/
theorem claim_C4_index_range (T new : List Char) (i : Nat) :
    (i < (separate_chords_and_text T).length →
      ∃ out, replace_line_with_chords T i new = .ok out) ∧
    ((separate_chords_and_text T).length ≤ i →
      replace_line_with_chords T i new =
        .error ("Text line index ".toList ++ (Nat.repr i).toList
          ++ " out of range (max ".toList
          ++ (Nat.repr ((separate_chords_and_text T).length - 1)).toList
          ++ ")".toList)) := by
  constructor
  · intro h
    simp only [replace_line_with_chords, findTarget_eq, if_pos h]
    exact ⟨_, rfl⟩
  · intro h
    simp only [replace_line_with_chords, findTarget_eq,
      if_neg (show ¬ i < (separate_chords_and_text T).length by omega)]

/-- Closed witness for C4: an in-range index succeeds, index 99 on a
two-entry document raises the error naming max index 1. -/
theorem claim_C4_witness :
    (∃ out, replace_line_with_chords "G   Am\nHello world\nDm  G\nCountry roads".toList
        0 "Hi there".toList = .ok out) ∧
    replace_line_with_chords "G   Am\nHello world".toList 99 "oops".toList =
      .error ("Text line index ".toList ++ (Nat.repr 99).toList
        ++ " out of range (max ".toList ++ (Nat.repr 0).toList ++ ")".toList) := by
  constructor
  · exact (claim_C4_index_range "G   Am\nHello world\nDm  G\nCountry roads".toList
      "Hi there".toList 0).1 (by decide)
  · have h := (claim_C4_index_range "G   Am\nHello world".toList "oops".toList 99).2
      (by decide)
    have hc : (separate_chords_and_text "G   Am\nHello world".toList).length - 1 = 0 := by
      decide
    rw [hc] at h
    exact h

/-- **C9.** For an in-range index, single-line replacement rewrites exactly
entry `i`: its lyric becomes the new text, its chord line is recomputed via
the Position Mapper against the *old* lyric exactly when it exists and the
new text is non-blank (and kept unchanged otherwise), every other entry is
untouched, and the output is the reassembly (chords line if present, then
lyric) of the updated entries in order. -/
theorem claim_C9_single_line_replacement (T new : List Char) (i : Nat)
    (h : i < (separate_chords_and_text T).length) :
    ∃ es2 : List Entry,
      replace_line_with_chords T i new = .ok (joinNl (renderEntries es2)) ∧
      es2.length = (separate_chords_and_text T).length ∧
      (∀ j, j ≠ i → es2.getD j ⟨none, []⟩ = (separate_chords_and_text T).getD j ⟨none, []⟩) ∧
      (es2.getD i ⟨none, []⟩).text = new ∧
      (es2.getD i ⟨none, []⟩).chords =
        (match ((separate_chords_and_text T).getD i ⟨none, []⟩).chords with
         | some cl =>
           if pyStrip new ≠ [] then
             some (_place_chords (_extract_chord_positions cl)
               ((separate_chords_and_text T).getD i ⟨none, []⟩).text new)
           else some cl
         | none => none) := by
  refine ⟨(separate_chords_and_text T).set i
    ⟨(match ((separate_chords_and_text T).getD i ⟨none, []⟩).chords with
      | some cl =>
        if pyStrip new ≠ [] then
          some (_place_chords (_extract_chord_positions cl)
            ((separate_chords_and_text T).getD i ⟨none, []⟩).text new)
        else some cl
      | none => none),
     new⟩, ?_, ?_, ?_, ?_, ?_⟩
  · simp only [replace_line_with_chords, findTarget_eq, if_pos h]
  · simp
  · intro j hj
    rw [List.getD_eq_getElem?_getD,
        List.getElem?_set_ne (fun hh => hj hh.symm),
        List.getD_eq_getElem?_getD]
  · rw [List.getD_eq_getElem?_getD, List.getElem?_set,
        if_pos (rfl : i = i), if_pos h]
    rfl
  · rw [List.getD_eq_getElem?_getD, List.getElem?_set,
        if_pos (rfl : i = i), if_pos h]
    rfl

/-- Closed witness for C9 at the spec's own scenario. -/
theorem claim_C9_witness :
    ∃ es2 : List Entry,
      replace_line_with_chords "G   Am\nHello world\nDm  G\nCountry roads".toList
          0 "Hi there".toList = .ok (joinNl (renderEntries es2)) ∧
      es2.length = (separate_chords_and_text
        "G   Am\nHello world\nDm  G\nCountry roads".toList).length ∧
      (∀ j, j ≠ 0 → es2.getD j ⟨none, []⟩ = (separate_chords_and_text
        "G   Am\nHello world\nDm  G\nCountry roads".toList).getD j ⟨none, []⟩) ∧
      (es2.getD 0 ⟨none, []⟩).text = "Hi there".toList ∧
      (es2.getD 0 ⟨none, []⟩).chords =
        (match ((separate_chords_and_text
            "G   Am\nHello world\nDm  G\nCountry roads".toList).getD 0
              ⟨none, []⟩).chords with
         | some cl =>
           if pyStrip "Hi there".toList ≠ [] then
             some (_place_chords (_extract_chord_positions cl)
               ((separate_chords_and_text
                 "G   Am\nHello world\nDm  G\nCountry roads".toList).getD 0
                   ⟨none, []⟩).text "Hi there".toList)
           else some cl
         | none => none) :=
  claim_C9_single_line_replacement
    "G   Am\nHello world\nDm  G\nCountry roads".toList "Hi there".toList 0 (by decide)

/-! ## §4.4 Inline-Notation Normalizer (`inline_to_above_line`)

`inline_to_above_line` is imported and exercised by the repository's tests
(`tests/test_chord_parser.py`) but absent from
`src/backend/app/services/chord_parser.py`, so it is modelled from the
spec below. -/

/-- Split a list at the first `']'`: the part before it and the part after
it, or `none` when there is no `']'`. -/
def breakClose : List Char → Option (List Char × List Char)
  | [] => none
  | c :: cs =>
    if c = ']' then some ([], cs)
    else (breakClose cs).map fun p => (c :: p.1, p.2)

theorem breakClose_shrinks : ∀ (l a b : List Char),
    breakClose l = some (a, b) → b.length < l.length := by
  intro l
  induction l with
  | nil => intro a b h; exact absurd h (by simp [breakClose])
  | cons c cs ih =>
    intro a b h
    simp only [breakClose] at h
    by_cases hc : c = ']'
    · rw [if_pos hc] at h
      injection h with h2
      injection h2 with _ h3
      subst h3
      simp
    · rw [if_neg hc] at h
      cases hbc : breakClose cs with
      | none => rw [hbc] at h; simp at h
      | some p =>
        rw [hbc] at h
        simp only [Option.map_some'] at h
        injection h with h2
        have hb : b = p.2 := by
          have := congrArg Prod.snd h2
          simpa using this.symm
        subst hb
        have := ih p.1 p.2 (by rw [hbc])
        simp only [List.length_cons]
        omega

/-- Modelled from the spec: the accumulating scan of §4.4.  Walk the line
left to right; a complete `[...]` marker appends its chord to the chord
buffer after padding that buffer with spaces up to the current lyric-buffer
length; every other character (including an unmatched `[`) goes to the
lyric buffer.  Fuel-bounded (fuel `line.length` suffices). -/
def inlineScanF : Nat → List Char → List Char → List Char → List Char × List Char
  | _, [], cAcc, lAcc => (cAcc, lAcc)
  | 0, _ :: _, cAcc, lAcc => (cAcc, lAcc)
  | n + 1, c :: rest, cAcc, lAcc =>
    if c = '[' then
      (breakClose rest).elim (inlineScanF n rest cAcc (lAcc ++ [c])) fun p =>
        inlineScanF n p.2
          (cAcc ++ List.replicate (lAcc.length - cAcc.length) ' ' ++ p.1) lAcc
    else inlineScanF n rest cAcc (lAcc ++ [c])

/-- Modelled from the spec: `inline_to_above_line` (§4.4).  A line without
`[` is returned unchanged; otherwise the scan produces the synthesized
chord line and the bracket-stripped lyric line, and the chord line is
emitted (above the lyric line) only if it contains any non-whitespace. -/
def inline_to_above_line (line : List Char) : List Char :=
  if '[' ∉ line then line
  else
    let cl := (inlineScanF line.length line [] []).1
    let ll := (inlineScanF line.length line [] []).2
    if pyStrip cl = [] then ll else cl ++ '\n' :: ll

/-- The bracket markers of a line with the lyric column at which each
bracket falls (specification view of the scan). -/
def markersF : Nat → List Char → Nat → List (Nat × List Char)
  | _, [], _ => []
  | 0, _ :: _, _ => []
  | n + 1, c :: rest, col =>
    if c = '[' then
      (breakClose rest).elim (markersF n rest (col + 1)) fun p =>
        (col, p.1) :: markersF n p.2 col
    else markersF n rest (col + 1)

/-- The markers of a line, columns counted in the stripped lyric text. -/
def markers (line : List Char) : List (Nat × List Char) :=
  markersF line.length line 0

/-- The line with all complete `[...]` markers removed. -/
def stripMarkersF : Nat → List Char → List Char
  | _, [] => []
  | 0, _ :: _ => []
  | n + 1, c :: rest =>
    if c = '[' then
      (breakClose rest).elim (c :: stripMarkersF n rest) fun p =>
        stripMarkersF n p.2
    else c :: stripMarkersF n rest

/-- The bracket-stripped lyric text of a line. -/
def stripMarkers (line : List Char) : List Char :=
  stripMarkersF line.length line

/-- Rendering a marker list into a chord line: each chord is appended after
padding the buffer with spaces up to its column (no padding happens when
an earlier chord already reaches past that column). -/
def renderChordsAcc (acc : List Char) : List (Nat × List Char) → List Char
  | [] => acc
  | (col, chord) :: rest =>
    renderChordsAcc (acc ++ List.replicate (col - acc.length) ' ' ++ chord) rest

/-- The columns at which `renderChordsAcc` writes each chord: the larger of
the bracket's column and the running buffer length. -/
def chordColsFrom (accLen : Nat) : List (Nat × List Char) → List Nat
  | [] => []
  | (col, tok) :: rest =>
    max accLen col :: chordColsFrom (max accLen col + tok.length) rest

theorem markersF_fuel_eq : ∀ (n m : Nat) (l : List Char) (col : Nat),
    l.length ≤ n → l.length ≤ m → markersF n l col = markersF m l col := by
  intro n
  induction n with
  | zero =>
    intro m l col hn _
    cases l with
    | nil => cases m <;> rfl
    | cons c cs => simp at hn
  | succ n ih =>
    intro m l col hn hm
    cases l with
    | nil => cases m <;> rfl
    | cons c cs =>
      cases m with
      | zero => simp at hm
      | succ m =>
        simp only [markersF]
        simp only [List.length_cons] at hn hm
        by_cases hc : c = '['
        · rw [if_pos hc, if_pos hc]
          cases hbc : breakClose cs with
          | none =>
            rw [Option.elim_none, Option.elim_none, ih m cs (col + 1) (by omega) (by omega)]
          | some p =>
            have hs := breakClose_shrinks cs p.1 p.2 (by rw [hbc])
            rw [Option.elim_some, Option.elim_some, ih m p.2 col (by omega) (by omega)]
        · rw [if_neg hc, if_neg hc, ih m cs (col + 1) (by omega) (by omega)]

theorem stripMarkersF_fuel_eq : ∀ (n m : Nat) (l : List Char),
    l.length ≤ n → l.length ≤ m → stripMarkersF n l = stripMarkersF m l := by
  intro n
  induction n with
  | zero =>
    intro m l hn _
    cases l with
    | nil => cases m <;> rfl
    | cons c cs => simp at hn
  | succ n ih =>
    intro m l hn hm
    cases l with
    | nil => cases m <;> rfl
    | cons c cs =>
      cases m with
      | zero => simp at hm
      | succ m =>
        simp only [stripMarkersF]
        simp only [List.length_cons] at hn hm
        by_cases hc : c = '['
        · rw [if_pos hc, if_pos hc]
          cases hbc : breakClose cs with
          | none =>
            rw [Option.elim_none, Option.elim_none, ih m cs (by omega) (by omega)]
          | some p =>
            have hs := breakClose_shrinks cs p.1 p.2 (by rw [hbc])
            rw [Option.elim_some, Option.elim_some, ih m p.2 (by omega) (by omega)]
        · rw [if_neg hc, if_neg hc, ih m cs (by omega) (by omega)]

/-- Fusion of the accumulating scan: its chord buffer is the rendering of
the line's markers and its lyric buffer is the bracket-stripped text. -/
theorem inlineScanF_eq : ∀ (n : Nat) (l cAcc lAcc : List Char), l.length ≤ n →
    inlineScanF n l cAcc lAcc =
      (renderChordsAcc cAcc (markersF l.length l lAcc.length),
       lAcc ++ stripMarkersF l.length l) := by
  intro n
  induction n with
  | zero =>
    intro l cAcc lAcc hn
    cases l with
    | nil => simp [inlineScanF, markersF, stripMarkersF, renderChordsAcc]
    | cons c cs => simp at hn
  | succ n ih =>
    intro l cAcc lAcc hn
    cases l with
    | nil => simp [inlineScanF, markersF, stripMarkersF, renderChordsAcc]
    | cons c cs =>
      simp only [inlineScanF, markersF, stripMarkersF, List.length_cons]
      simp only [List.length_cons] at hn
      by_cases hc : c = '['
      · rw [if_pos hc, if_pos hc, if_pos hc]
        cases hbc : breakClose cs with
        | none =>
          rw [Option.elim_none, Option.elim_none, Option.elim_none]
          rw [ih cs cAcc (lAcc ++ [c]) (by omega)]
          have hlen : (lAcc ++ [c]).length = lAcc.length + 1 := by simp
          rw [hlen, List.append_assoc]
          rfl
        | some p =>
          have hs := breakClose_shrinks cs p.1 p.2 (by rw [hbc])
          rw [Option.elim_some, Option.elim_some, Option.elim_some]
          rw [ih p.2 (cAcc ++ List.replicate (lAcc.length - cAcc.length) ' ' ++ p.1)
              lAcc (by omega)]
          rw [markersF_fuel_eq p.2.length cs.length p.2 lAcc.length (le_rfl) (by omega),
              stripMarkersF_fuel_eq p.2.length cs.length p.2 (le_rfl) (by omega)]
          rfl
      · rw [if_neg hc, if_neg hc, if_neg hc]
        rw [ih cs cAcc (lAcc ++ [c]) (by omega)]
        have hlen : (lAcc ++ [c]).length = lAcc.length + 1 := by simp
        rw [hlen, List.append_assoc]
        rfl

theorem getD_append_left (a b : List Char) (j : Nat) (h : j < a.length) :
    (a ++ b).getD j ' ' = a.getD j ' ' := by
  rw [List.getD_eq_getElem?_getD, List.getD_eq_getElem?_getD,
      List.getElem?_append, if_pos h]

theorem renderChordsAcc_extends : ∀ (ms : List (Nat × List Char)) (acc : List Char),
    ∃ suf, renderChordsAcc acc ms = acc ++ suf := by
  intro ms
  induction ms with
  | nil =>
    intro acc
    exact ⟨[], by simp [renderChordsAcc]⟩
  | cons m rest ih =>
    obtain ⟨col, tok⟩ := m
    intro acc
    obtain ⟨suf, hsuf⟩ := ih (acc ++ List.replicate (col - acc.length) ' ' ++ tok)
    refine ⟨List.replicate (col - acc.length) ' ' ++ tok ++ suf, ?_⟩
    show renderChordsAcc (acc ++ List.replicate (col - acc.length) ' ' ++ tok) rest = _
    rw [hsuf]
    simp [List.append_assoc]

/-- Each rendered chord appears verbatim at its computed column. -/
theorem renderChordsAcc_tokenAt : ∀ (ms : List (Nat × List Char)) (acc : List Char)
    (i : Nat), i < ms.length → ∀ k, k < ((ms.getD i (0, [])).2).length →
    (renderChordsAcc acc ms).getD ((chordColsFrom acc.length ms).getD i 0 + k) ' '
      = ((ms.getD i (0, [])).2).getD k ' ' := by
  intro ms
  induction ms with
  | nil =>
    intro acc i hi
    simp at hi
  | cons m rest ih =>
    obtain ⟨col, tok⟩ := m
    intro acc i hi k hk
    cases i with
    | zero =>
      simp only [List.getD_cons_zero] at hk ⊢
      show (renderChordsAcc (acc ++ List.replicate (col - acc.length) ' ' ++ tok)
          rest).getD (max acc.length col + k) ' ' = tok.getD k ' '
      obtain ⟨suf, hsuf⟩ :=
        renderChordsAcc_extends rest (acc ++ List.replicate (col - acc.length) ' ' ++ tok)
      rw [hsuf]
      have hlen : (acc ++ List.replicate (col - acc.length) ' ').length
          = max acc.length col := by
        simp only [List.length_append, List.length_replicate]
        omega
      have hassoc : acc ++ List.replicate (col - acc.length) ' ' ++ tok ++ suf
          = (acc ++ List.replicate (col - acc.length) ' ') ++ (tok ++ suf) := by
        simp [List.append_assoc]
      rw [hassoc, ← hlen, getD_append_plus, getD_append_left tok suf k hk]
    | succ i =>
      simp only [List.getD_cons_succ] at hk ⊢
      have hstep : chordColsFrom acc.length ((col, tok) :: rest)
          = max acc.length col :: chordColsFrom (max acc.length col + tok.length) rest :=
        rfl
      rw [hstep, List.getD_cons_succ]
      have hacclen : (acc ++ List.replicate (col - acc.length) ' ' ++ tok).length
          = max acc.length col + tok.length := by
        simp only [List.length_append, List.length_replicate]
        omega
      have hih := ih (acc ++ List.replicate (col - acc.length) ' ' ++ tok) i
        (by simpa using hi) k hk
      rw [hacclen] at hih
      exact hih

/-- Consecutive placement columns: each chord goes at the larger of its
bracket's column and the end of the previously rendered chord. -/
theorem chordColsFrom_consec : ∀ (ms : List (Nat × List Char)) (a i : Nat),
    i + 1 < ms.length →
    (chordColsFrom a ms).getD (i + 1) 0 =
      max ((chordColsFrom a ms).getD i 0 + ((ms.getD i (0, [])).2).length)
        ((ms.getD (i + 1) (0, [])).1) := by
  intro ms
  induction ms with
  | nil =>
    intro a i hi
    simp at hi
  | cons m rest ih =>
    obtain ⟨col, tok⟩ := m
    intro a i hi
    cases i with
    | zero =>
      cases rest with
      | nil => simp at hi
      | cons m2 rest2 =>
        obtain ⟨col2, tok2⟩ := m2
        rfl
    | succ i =>
      have hih := ih (max a col + tok.length) i (by simpa using hi)
      have hstep : chordColsFrom a ((col, tok) :: rest)
          = max a col :: chordColsFrom (max a col + tok.length) rest := rfl
      rw [hstep]
      simp only [List.getD_cons_succ]
      exact hih

/-- **C5, counterexample.** On `"[Cmaj7]a[G]b"` the second bracket falls at
lyric column 1, but the synthesized chord line is `"Cmaj7G"`: the earlier
chord already extends past column 1, so `G` is emitted at column 5, not at
the column where its bracket fell. -/
theorem claim_C5_cex :
    (markers "[Cmaj7]a[G]b".toList).getD 1 (0, []) = (1, ['G']) ∧
    ((splitNl (inline_to_above_line "[Cmaj7]a[G]b".toList)).getD 0 []).getD 1 ' '
      ≠ 'G' ∧
    ((splitNl (inline_to_above_line "[Cmaj7]a[G]b".toList)).getD 0 []).getD 5 ' '
      = 'G' :=
  ⟨by decide, by decide, by decide⟩

/-- **C5, amended.** The Inline-Notation Normalizer returns a line without
`[` unchanged; otherwise it emits the synthesized chord line (only if it
contains non-whitespace) above the bracket-stripped lyric line, where each
bracket's chord is written at the larger of the column where its bracket
fell in the accumulated lyric text and the end of the previously emitted
chord (so the bracket's own column is used exactly when no earlier chord
reaches past it). -/
theorem claim_C5_inline_normalizer :
    (∀ line : List Char, '[' ∉ line → inline_to_above_line line = line) ∧
    (∀ line : List Char, '[' ∈ line →
      inline_to_above_line line =
        (if pyStrip (renderChordsAcc [] (markers line)) = []
         then stripMarkers line
         else renderChordsAcc [] (markers line) ++ '\n' :: stripMarkers line)) ∧
    (∀ (line : List Char) (i : Nat), i < (markers line).length →
      ∀ k, k < (((markers line).getD i (0, [])).2).length →
        (renderChordsAcc [] (markers line)).getD
            ((chordColsFrom 0 (markers line)).getD i 0 + k) ' '
          = (((markers line).getD i (0, [])).2).getD k ' ') ∧
    (∀ line : List Char, markers line ≠ [] →
      (chordColsFrom 0 (markers line)).getD 0 0 = ((markers line).getD 0 (0, [])).1) ∧
    (∀ (line : List Char) (i : Nat), i + 1 < (markers line).length →
      (chordColsFrom 0 (markers line)).getD (i + 1) 0 =
        max ((chordColsFrom 0 (markers line)).getD i 0
              + (((markers line).getD i (0, [])).2).length)
          (((markers line).getD (i + 1) (0, [])).1)) := by
  refine ⟨?_, ?_, ?_, ?_, ?_⟩
  · intro line h
    simp [inline_to_above_line, h]
  · intro line h
    unfold inline_to_above_line
    rw [if_neg (not_not_intro h)]
    rw [inlineScanF_eq line.length line [] [] le_rfl]
    simp only [List.nil_append]
    rfl
  · intro line i hi k hk
    have := renderChordsAcc_tokenAt (markers line) [] i hi k hk
    simpa using this
  · intro line h
    cases hm : markers line with
    | nil => exact absurd hm h
    | cons m rest =>
      obtain ⟨col, tok⟩ := m
      show max 0 col = col
      omega
  · intro line i hi
    exact chordColsFrom_consec (markers line) 0 i hi

/-- Closed witness for the amended C5 at the repository's own test vector. -/
theorem claim_C5_witness :
    inline_to_above_line "[G]Take me [Am]home".toList =
      (if pyStrip (renderChordsAcc [] (markers "[G]Take me [Am]home".toList)) = []
       then stripMarkers "[G]Take me [Am]home".toList
       else renderChordsAcc [] (markers "[G]Take me [Am]home".toList)
         ++ '\n' :: stripMarkers "[G]Take me [Am]home".toList) :=
  claim_C5_inline_normalizer.2.1 "[G]Take me [Am]home".toList (by decide)

/-! ### Boundary-snap lemmas for C1

`scanLeft text x` is the greatest left boundary at most `x`; `scanRight`
is the least right boundary at least its start.  Together they make
`_snap_to_boundary` monotone, which orders the remapped columns. -/

/-- A position where the left scan may stop: the line start or a position
immediately preceded by a space. -/
def LB (text : List Char) (b : Nat) : Prop :=
  b = 0 ∨ text.getD (b - 1) ' ' = ' '

/-- A position where the right scan may stop: the line end or a position
immediately preceded by a space. -/
def RB (text : List Char) (b : Nat) : Prop :=
  b = text.length ∨ text.getD (b - 1) ' ' = ' '

theorem scanLeft_le (text : List Char) : ∀ x, scanLeft text x ≤ x := by
  intro x
  induction x with
  | zero => exact le_rfl
  | succ l ih =>
    simp only [scanLeft]
    split
    · omega
    · exact le_rfl

theorem scanLeft_lb (text : List Char) : ∀ x, LB text (scanLeft text x) := by
  intro x
  induction x with
  | zero => exact Or.inl rfl
  | succ l ih =>
    simp only [scanLeft]
    split
    · exact ih
    · rename_i h
      right
      simp only [ne_eq, not_not] at h
      simpa using h

theorem scanLeft_greatest (text : List Char) : ∀ x b, LB text b → b ≤ x →
    b ≤ scanLeft text x := by
  intro x
  induction x with
  | zero => intro b _ hb; simpa [scanLeft] using hb
  | succ l ih =>
    intro b hlb hb
    simp only [scanLeft]
    split
    · rename_i h
      rcases Nat.lt_or_ge b (l + 1) with h2 | h2
      · exact ih b hlb (by omega)
      · exfalso
        have hbe : b = l + 1 := by omega
        subst hbe
        rcases hlb with h3 | h3
        · omega
        · simp only [Nat.add_sub_cancel] at h3
          exact h h3
    · exact hb

theorem scanRightF_ge (text : List Char) : ∀ fuel r, r ≤ scanRightF fuel text r := by
  intro fuel
  induction fuel with
  | zero => intro r; exact le_rfl
  | succ n ih =>
    intro r
    simp only [scanRightF]
    split
    · exact le_trans (by omega) (ih (r + 1))
    · exact le_rfl

theorem scanRightF_le_len (text : List Char) : ∀ fuel r, r ≤ text.length →
    scanRightF fuel text r ≤ text.length := by
  intro fuel
  induction fuel with
  | zero => intro r h; exact h
  | succ n ih =>
    intro r h
    simp only [scanRightF]
    split
    · rename_i hcond
      simp only [Bool.and_eq_true, decide_eq_true_eq] at hcond
      exact ih (r + 1) (by omega)
    · exact h

theorem scanRightF_rb (text : List Char) : ∀ fuel r,
    text.length ≤ r + fuel → r ≤ text.length →
    RB text (scanRightF fuel text r) := by
  intro fuel
  induction fuel with
  | zero =>
    intro r hfuel hr
    have : r = text.length := by omega
    exact Or.inl this
  | succ n ih =>
    intro r hfuel hr
    simp only [scanRightF]
    split
    · rename_i hcond
      simp only [Bool.and_eq_true, decide_eq_true_eq] at hcond
      exact ih (r + 1) (by omega) (by omega)
    · rename_i hcond
      simp only [Bool.and_eq_true, decide_eq_true_eq, not_and_or] at hcond
      rcases hcond with h | h
      · exact Or.inl (by omega)
      · right
        simp only [bne_iff_ne, ne_eq, not_not] at h
        exact h

theorem scanRightF_least (text : List Char) : ∀ fuel r b,
    r ≤ b → RB text b → scanRightF fuel text r ≤ b := by
  intro fuel
  induction fuel with
  | zero => intro r b hrb _; exact hrb
  | succ n ih =>
    intro r b hrb hb
    simp only [scanRightF]
    split
    · rename_i hcond
      simp only [Bool.and_eq_true, decide_eq_true_eq] at hcond
      rcases Nat.lt_or_ge r b with h2 | h2
      · exact ih (r + 1) b (by omega) hb
      · exfalso
        have hbe : b = r := by omega
        subst hbe
        rcases hb with h3 | h3
        · omega
        · rcases hcond with ⟨_, h4⟩
          rw [h3] at h4
          simp at h4
    · exact hrb

theorem scanRight_ge (text : List Char) (r : Nat) : r ≤ scanRight text r :=
  scanRightF_ge text text.length r

theorem scanRight_le_len (text : List Char) (r : Nat) (h : r ≤ text.length) :
    scanRight text r ≤ text.length :=
  scanRightF_le_len text text.length r h

theorem scanRight_rb (text : List Char) (r : Nat) (h : r ≤ text.length) :
    RB text (scanRight text r) :=
  scanRightF_rb text text.length r (by omega) h

theorem scanRight_least (text : List Char) (r b : Nat) (hrb : r ≤ b)
    (hb : RB text b) : scanRight text r ≤ b :=
  scanRightF_least text text.length r b hrb hb

/-- The four cases of `_snap_to_boundary` for an interior non-boundary
position: it returns the nearer of the two scans (ties to the left). -/
theorem snap_interior (text : List Char) (pos : Nat) (h0 : pos ≠ 0)
    (hlen : pos < text.length) (hb : text.getD (pos - 1) ' ' ≠ ' ') :
    _snap_to_boundary text pos =
      if pos - scanLeft text pos ≤ scanRight text pos - pos
      then scanLeft text pos else scanRight text pos := by
  unfold _snap_to_boundary
  rw [if_neg h0, if_neg (by omega), if_neg hb]

theorem snap_le_length (text : List Char) (pos : Nat) :
    _snap_to_boundary text pos ≤ text.length := by
  by_cases h0 : pos = 0
  · unfold _snap_to_boundary
    rw [if_pos h0]
    omega
  by_cases h1 : text.length ≤ pos
  · unfold _snap_to_boundary
    rw [if_neg h0, if_pos h1]
  by_cases h2 : text.getD (pos - 1) ' ' = ' '
  · unfold _snap_to_boundary
    rw [if_neg h0, if_neg h1, if_pos h2]
    omega
  · rw [snap_interior text pos h0 (by omega) h2]
    split
    · exact le_trans (scanLeft_le text pos) (by omega)
    · exact scanRight_le_len text pos (by omega)

/-- `_snap_to_boundary` is monotone in the position. -/
theorem snap_mono (text : List Char) (p p2 : Nat) (hpp : p ≤ p2) :
    _snap_to_boundary text p ≤ _snap_to_boundary text p2 := by
  by_cases hp0 : p = 0
  · subst hp0
    unfold _snap_to_boundary
    rw [if_pos rfl]
    omega
  by_cases hp2len : text.length ≤ p2
  · have h2 : _snap_to_boundary text p2 = text.length := by
      unfold _snap_to_boundary
      rw [if_neg (by omega), if_pos hp2len]
    rw [h2]
    exact snap_le_length text p
  -- now 0 < p ≤ p2 < text.length
  have hplen : p < text.length := by omega
  have hp20 : p2 ≠ 0 := by omega
  by_cases hbp2 : text.getD (p2 - 1) ' ' = ' '
  · -- p2 is itself a boundary: snap p2 = p2, and snap p ≤ p2
    have h2 : _snap_to_boundary text p2 = p2 := by
      unfold _snap_to_boundary
      rw [if_neg hp20, if_neg (by omega), if_pos hbp2]
    rw [h2]
    by_cases hbp : text.getD (p - 1) ' ' = ' '
    · have h1 : _snap_to_boundary text p = p := by
        unfold _snap_to_boundary
        rw [if_neg hp0, if_neg (by omega), if_pos hbp]
      rw [h1]
      exact hpp
    · rw [snap_interior text p hp0 hplen hbp]
      split
      · exact le_trans (scanLeft_le text p) hpp
      · exact scanRight_least text p p2 hpp (Or.inr hbp2)
  · by_cases hbp : text.getD (p - 1) ' ' = ' '
    · -- p is a boundary, p2 is not: snap p = p ≤ chosen scan of p2
      have h1 : _snap_to_boundary text p = p := by
        unfold _snap_to_boundary
        rw [if_neg hp0, if_neg (by omega), if_pos hbp]
      rw [h1, snap_interior text p2 hp20 (by omega) hbp2]
      split
      · exact scanLeft_greatest text p2 p (Or.inr hbp) hpp
      · exact le_trans hpp (scanRight_ge text p2)
    · -- neither position is a boundary
      rw [snap_interior text p hp0 hplen hbp,
          snap_interior text p2 hp20 (by omega) hbp2]
      have hll : scanLeft text p ≤ scanLeft text p2 :=
        scanLeft_greatest text p2 (scanLeft text p) (scanLeft_lb text p)
          (le_trans (scanLeft_le text p) hpp)
      have hrr : scanRight text p ≤ scanRight text p2 :=
        scanRight_least text p (scanRight text p2)
          (le_trans hpp (scanRight_ge text p2))
          (scanRight_rb text p2 (by omega))
      split
      · split
        · exact hll
        · exact le_trans (scanLeft_le text p) (le_trans hpp (scanRight_ge text p2))
      · split
        · -- the hard tie case: show the two positions share their word
          rename_i hcp hcp2
          by_cases hword : p ≤ scanLeft text p2
          · exact scanRight_least text p (scanLeft text p2) hword
              (by
                rcases scanLeft_lb text p2 with h | h
                · omega
                · exact Or.inr h)
          · -- no boundary between p and p2: same left and right scans
            exfalso
            have hl21 : scanLeft text p2 ≤ scanLeft text p :=
              scanLeft_greatest text p (scanLeft text p2) (scanLeft_lb text p2)
                (by omega)
            have hl12 : scanLeft text p ≤ scanLeft text p2 := hll
            have hleq : scanLeft text p = scanLeft text p2 := le_antisymm hl12 hl21
            have hrgt : p2 < scanRight text p := by
              by_contra hc
              push_neg at hc
              have hrb := scanRight_rb text p (by omega)
              have hlb2 : LB text (scanRight text p) := by
                rcases hrb with h | h
                · omega
                · exact Or.inr h
              have := scanLeft_greatest text p2 (scanRight text p) hlb2 hc
              have hge := scanRight_ge text p
              omega
            have hr12 : scanRight text p ≤ scanRight text p2 := hrr
            have hr21 : scanRight text p2 ≤ scanRight text p :=
              scanRight_least text p2 (scanRight text p) (by omega)
                (scanRight_rb text p (by omega))
            have hreq : scanRight text p = scanRight text p2 := le_antisymm hr12 hr21
            rw [← hleq, ← hreq] at hcp2
            have hge := scanRight_ge text p
            have hle := scanLeft_le text p
            omega
        · exact hrr

/-! ### Shape of the extracted `(column, token)` list -/

theorem mem_of_mem_takeWhile (p : Char → Bool) (l : List Char) (x : Char)
    (h : x ∈ l.takeWhile p) : x ∈ l := by
  have hsplit : l.takeWhile p ++ l.dropWhile p = l := List.takeWhile_append_dropWhile p l
  rw [← hsplit]
  exact List.mem_append_left _ h

theorem mem_of_mem_dropWhile (p : Char → Bool) (l : List Char) (x : Char)
    (h : x ∈ l.dropWhile p) : x ∈ l := by
  have hsplit : l.takeWhile p ++ l.dropWhile p = l := List.takeWhile_append_dropWhile p l
  rw [← hsplit]
  exact List.mem_append_right _ h

theorem takeWhile_pred (p : Char → Bool) : ∀ (l : List Char) (x : Char),
    x ∈ l.takeWhile p → p x = true := by
  intro l
  induction l with
  | nil => intro x hx; simp at hx
  | cons a as ih =>
    intro x hx
    rw [List.takeWhile_cons] at hx
    by_cases hpa : p a = true
    · rw [if_pos hpa] at hx
      rcases List.mem_cons.mp hx with he | hm
      · subst he; exact hpa
      · exact ih x hm
    · rw [if_neg hpa] at hx
      simp at hx

/-- Every extracted token is nonempty and contains no space. -/
theorem extract_tok_shape : ∀ (n : Nat) (sub : List Char) (i : Nat),
    ∀ pt ∈ extractPosF n sub i, pt.2 ≠ [] ∧ ∀ ch ∈ pt.2, ch ≠ ' ' := by
  intro n
  induction n with
  | zero =>
    intro sub i pt hpt
    cases sub <;> simp [extractPosF] at hpt
  | succ n ih =>
    intro sub i pt hpt
    match sub with
    | [] => simp [extractPosF] at hpt
    | c :: rest =>
      simp only [extractPosF] at hpt
      by_cases hc : c = ' '
      · rw [if_pos hc] at hpt
        exact ih rest (i + 1) pt hpt
      · rw [if_neg hc] at hpt
        rcases List.mem_cons.mp hpt with he | hm
        · subst he
          refine ⟨by simp, ?_⟩
          intro ch hch
          rcases List.mem_cons.mp hch with he2 | hm2
          · subst he2; exact hc
          · have := takeWhile_pred nonSp rest ch hm2
            simpa [nonSp] using this
        · exact ih _ _ pt hm

/-- Every extracted character comes from the scanned suffix. -/
theorem extract_chars_mem : ∀ (n : Nat) (sub : List Char) (i : Nat),
    ∀ pt ∈ extractPosF n sub i, ∀ ch ∈ pt.2, ch ∈ sub := by
  intro n
  induction n with
  | zero =>
    intro sub i pt hpt
    cases sub <;> simp [extractPosF] at hpt
  | succ n ih =>
    intro sub i pt hpt ch hch
    match sub with
    | [] => simp [extractPosF] at hpt
    | c :: rest =>
      simp only [extractPosF] at hpt
      by_cases hc : c = ' '
      · rw [if_pos hc] at hpt
        exact List.mem_cons_of_mem c (ih rest (i + 1) pt hpt ch hch)
      · rw [if_neg hc] at hpt
        rcases List.mem_cons.mp hpt with he | hm
        · subst he
          rcases List.mem_cons.mp hch with he2 | hm2
          · subst he2; exact List.mem_cons_self ch rest
          · exact List.mem_cons_of_mem c (mem_of_mem_takeWhile nonSp rest ch hm2)
        · have := ih _ _ pt hm ch hch
          exact List.mem_cons_of_mem c (mem_of_mem_dropWhile nonSp rest ch this)

/-- Extracted columns are bounded below by the scan cursor. -/
theorem extract_lb : ∀ (n : Nat) (sub : List Char) (i : Nat),
    ∀ pt ∈ extractPosF n sub i, i ≤ pt.1 := by
  intro n
  induction n with
  | zero =>
    intro sub i pt hpt
    cases sub <;> simp [extractPosF] at hpt
  | succ n ih =>
    intro sub i pt hpt
    match sub with
    | [] => simp [extractPosF] at hpt
    | c :: rest =>
      simp only [extractPosF] at hpt
      by_cases hc : c = ' '
      · rw [if_pos hc] at hpt
        have := ih rest (i + 1) pt hpt
        omega
      · rw [if_neg hc] at hpt
        rcases List.mem_cons.mp hpt with he | hm
        · subst he; exact le_rfl
        · have := ih _ _ pt hm
          omega

/-- Extracted columns are strictly increasing in input order. -/
theorem extract_sorted : ∀ (n : Nat) (sub : List Char) (i : Nat),
    List.Pairwise (fun a b : Nat × List Char => a.1 < b.1) (extractPosF n sub i) := by
  intro n
  induction n with
  | zero =>
    intro sub i
    cases sub <;> simp [extractPosF]
  | succ n ih =>
    intro sub i
    match sub with
    | [] => simp [extractPosF]
    | c :: rest =>
      simp only [extractPosF]
      by_cases hc : c = ' '
      · rw [if_pos hc]
        exact ih rest (i + 1)
      · rw [if_neg hc]
        refine List.Pairwise.cons ?_ (ih _ _)
        intro b hb
        have := extract_lb n _ _ b hb
        simp only
        omega

/-! ### The free-slot search -/

theorem findFreeF_ge : ∀ (n : Nat) (buf : List Char) (lenc pos : Nat),
    pos ≤ findFreeF n buf lenc pos := by
  intro n
  induction n with
  | zero => intro buf lenc pos; exact le_rfl
  | succ n ih =>
    intro buf lenc pos
    simp only [findFreeF]
    split
    · split
      · omega
      · exact le_trans (by omega) (ih buf lenc (pos + 1))
    · exact le_rfl

/-- Every position the search walked past collides. -/
theorem findFreeF_path : ∀ (n : Nat) (buf : List Char) (lenc pos p : Nat),
    pos ≤ p → p < findFreeF n buf lenc pos → collides buf lenc p = true := by
  intro n
  induction n with
  | zero =>
    intro buf lenc pos p h1 h2
    exact absurd h2 (by simp only [findFreeF]; omega)
  | succ n ih =>
    intro buf lenc pos p h1 h2
    simp only [findFreeF] at h2
    by_cases hcol : collides buf lenc pos = true
    · rw [if_pos hcol] at h2
      rcases Nat.eq_or_lt_of_le h1 with he | hlt
      · subst he; exact hcol
      · split at h2
        · omega
        · exact ih buf lenc (pos + 1) p (by omega) h2
    · rw [if_neg hcol] at h2
      omega

theorem findFree_ge (buf : List Char) (lenc pos : Nat) :
    pos ≤ findFree buf lenc pos :=
  findFreeF_ge buf.length buf lenc pos

theorem findFree_path (buf : List Char) (lenc pos p : Nat) (h1 : pos ≤ p)
    (h2 : p < findFree buf lenc pos) : collides buf lenc p = true :=
  findFreeF_path buf.length buf lenc pos p h1 h2

/-- A non-colliding slot has only spaces under the token's in-buffer span. -/
theorem collides_false_free (buf : List Char) (lenc pos : Nat)
    (h : collides buf lenc pos = false) :
    ∀ k, k < lenc → pos + k < buf.length → buf.getD (pos + k) ' ' = ' ' := by
  intro k hk hb
  simp only [collides, List.any_eq_false] at h
  have := h k (List.mem_range.mpr hk)
  simp only [Bool.and_eq_true, decide_eq_true_eq, bne_iff_ne, ne_eq, not_and_or,
    not_not] at this
  rcases this with h2 | h2
  · omega
  · exact h2

/-- A colliding slot has a non-space cell under the token's span. -/
theorem collides_true_cell (buf : List Char) (lenc pos : Nat)
    (h : collides buf lenc pos = true) :
    ∃ k, k < lenc ∧ pos + k < buf.length ∧ buf.getD (pos + k) ' ' ≠ ' ' := by
  simp only [collides, List.any_eq_true] at h
  obtain ⟨k, hk, hcell⟩ := h
  simp only [Bool.and_eq_true, decide_eq_true_eq, bne_iff_ne, ne_eq] at hcell
  exact ⟨k, List.mem_range.mp hk, hcell.1, hcell.2⟩

/-! ### The placement invariant

A record of one placed token: the snapped start `s` it asked for, the
column `q` the free-slot search gave it, and the token itself. -/

structure Placed where
  s : Nat
  q : Nat
  tok : List Char

/-- Invariant of `_place_chords`' main loop over the placement history:
the buffer keeps its length; every placed token still reads back from its
block; every non-space cell belongs to some placed block; tokens are
nonempty and space-free; blocks fit the buffer; each token sits at or
after its requested start; and every position strictly between a token's
request and its placement is covered (within the token's width) by a block
placed strictly to the left. -/
structure HistInv (L : Nat) (buf : List Char) (hist : List Placed) : Prop where
  hlen : buf.length = L
  cells : ∀ h ∈ hist, ∀ k, k < h.tok.length → buf.getD (h.q + k) ' ' = h.tok.getD k ' '
  occ : ∀ c, buf.getD c ' ' ≠ ' ' → ∃ h ∈ hist, h.q ≤ c ∧ c < h.q + h.tok.length
  toks : ∀ h ∈ hist, h.tok ≠ [] ∧ ∀ ch ∈ h.tok, ch ≠ ' '
  fits : ∀ h ∈ hist, h.q + h.tok.length ≤ L
  sq : ∀ h ∈ hist, h.s ≤ h.q
  minim : ∀ h ∈ hist, ∀ p, h.s ≤ p → p < h.q →
    ∃ h2 ∈ hist, h2.q < h.q ∧ ∃ c, p ≤ c ∧ c < p + h.tok.length ∧
      h2.q ≤ c ∧ c < h2.q + h2.tok.length

/-- A cell inside a placed block is non-space. -/
theorem histInv_block_cell (L : Nat) (buf : List Char) (hist : List Placed)
    (inv : HistInv L buf hist) (h : Placed) (hh : h ∈ hist) (c : Nat)
    (h1 : h.q ≤ c) (h2 : c < h.q + h.tok.length) : buf.getD c ' ' ≠ ' ' := by
  have hcell := inv.cells h hh (c - h.q) (by omega)
  have heq : h.q + (c - h.q) = c := by omega
  rw [heq] at hcell
  rw [hcell]
  have hlt : c - h.q < h.tok.length := by omega
  rw [List.getD_eq_getElem _ _ hlt]
  exact (inv.toks h hh).2 _ (List.getElem_mem hlt)

/-- Key step: a free in-bounds cell at `q`, requested at or right of every
earlier request, lies at or right of the end of every placed block. -/
theorem hist_end_le (L : Nat) (buf : List Char) (hist : List Placed)
    (inv : HistInv L buf hist) (s q : Nat)
    (hsmax : ∀ h ∈ hist, h.s ≤ s) (hsq : s ≤ q)
    (hfree : buf.getD q ' ' = ' ') :
    ∀ h ∈ hist, h.q + h.tok.length ≤ q := by
  suffices H : ∀ n, ∀ h ∈ hist, h.q = n → h.q + h.tok.length ≤ q by
    intro h hh
    exact H h.q h hh rfl
  intro n
  induction n using Nat.strong_induction_on with
  | _ n ihn =>
    intro h hh hqn
    by_contra hlt
    push_neg at hlt
    rcases Nat.lt_or_ge q h.q with hcase | hcase
    · -- q left of h's placement: a strictly-earlier block covers some cell ≥ q,
      -- and by strong induction that block ends at or before q — contradiction
      obtain ⟨h2, hh2, hq2, c, hc1, hc2, hc3, hc4⟩ :=
        inv.minim h hh q (le_trans (hsmax h hh) hsq) hcase
      rcases Nat.lt_or_ge q h2.q with hcc | hcc
      · have := ihn h2.q (by omega) h2 hh2 rfl
        omega
      · exact histInv_block_cell L buf hist inv h2 hh2 q hcc (by omega) hfree
    · -- q inside h's block: its cell is a token character, not a space
      exact histInv_block_cell L buf hist inv h hh q hcase (by omega) hfree

/-- A clean placement step extends the invariant: writing the token at the
free slot the search found records one more `Placed` block. -/
theorem histInv_extend (L : Nat) (buf : List Char) (hist : List Placed)
    (inv : HistInv L buf hist) (s : Nat) (tok : List Char)
    (htok : tok ≠ []) (htokc : ∀ ch ∈ tok, ch ≠ ' ')
    (hsmax : ∀ h ∈ hist, h.s ≤ s)
    (hnocol : collides buf tok.length (findFree buf tok.length s) = false)
    (hqfit : findFree buf tok.length s + tok.length ≤ L) :
    HistInv L (writeTok buf (findFree buf tok.length s) tok)
      (⟨s, findFree buf tok.length s, tok⟩ :: hist) := by
  have hlen0 : 0 < tok.length := List.length_pos.mpr htok
  set q := findFree buf tok.length s with hqdef
  have hsq : s ≤ q := findFree_ge buf tok.length s
  have hfree0 : buf.getD q ' ' = ' ' := by
    have := collides_false_free buf tok.length q hnocol 0 hlen0 (by
      rw [inv.hlen]; omega)
    simpa using this
  have hend : ∀ h ∈ hist, h.q + h.tok.length ≤ q :=
    hist_end_le L buf hist inv s q hsmax hsq hfree0
  have hwrite : ∀ j, (writeTok buf q tok).getD j ' ' =
      if q ≤ j ∧ j < q + tok.length then tok.getD (j - q) ' ' else buf.getD j ' ' :=
    writeTok_getD_fit tok buf q (by rw [inv.hlen]; omega)
  refine ⟨?_, ?_, ?_, ?_, ?_, ?_, ?_⟩
  · rw [writeTok_length]
    exact inv.hlen
  · intro h hh k hk
    rcases List.mem_cons.mp hh with he | hm
    · subst he
      simp only at hk ⊢
      rw [hwrite, if_pos (by omega)]
      congr 1
      omega
    · have hj : h.q + k < q := by
        have := hend h hm
        omega
      rw [hwrite, if_neg (by omega)]
      exact inv.cells h hm k hk
  · intro c hc
    rw [hwrite] at hc
    by_cases hw : q ≤ c ∧ c < q + tok.length
    · exact ⟨⟨s, q, tok⟩, List.mem_cons_self _ _, hw.1, hw.2⟩
    · rw [if_neg hw] at hc
      obtain ⟨h, hh, hb⟩ := inv.occ c hc
      exact ⟨h, List.mem_cons_of_mem _ hh, hb⟩
  · intro h hh
    rcases List.mem_cons.mp hh with he | hm
    · subst he; exact ⟨htok, htokc⟩
    · exact inv.toks h hm
  · intro h hh
    rcases List.mem_cons.mp hh with he | hm
    · subst he; exact hqfit
    · exact inv.fits h hm
  · intro h hh
    rcases List.mem_cons.mp hh with he | hm
    · subst he; exact hsq
    · exact inv.sq h hm
  · intro h hh p hp1 hp2
    rcases List.mem_cons.mp hh with he | hm
    · subst he
      simp only at hp1 hp2 ⊢
      have hcol : collides buf tok.length p = true :=
        findFree_path buf tok.length s p hp1 hp2
      obtain ⟨k, hk, hkb, hkcell⟩ := collides_true_cell buf tok.length p hcol
      obtain ⟨h2, hh2, hb1, hb2⟩ := inv.occ (p + k) hkcell
      have hlen2 : 0 < h2.tok.length := List.length_pos.mpr (inv.toks h2 hh2).1
      have := hend h2 hh2
      exact ⟨h2, List.mem_cons_of_mem _ hh2, by omega,
        p + k, by omega, by omega, hb1, hb2⟩
    · obtain ⟨h2, hh2, hq2, c, hc1, hc2, hc3, hc4⟩ := inv.minim h hm p hp1 hp2
      exact ⟨h2, List.mem_cons_of_mem _ hh2, hq2, c, hc1, hc2, hc3, hc4⟩

/-- Main induction for clean runs of the placement loop: the final buffer
keeps every placed and every remaining token readable at its recorded
column, columns never retreat past earlier block ends, and consecutive
placed blocks never overlap. -/
theorem placeLoop_clean (L : Nat) :
    ∀ (rest : List (Nat × List Char)) (buf : List Char) (hist : List Placed),
    HistInv L buf hist →
    (∀ pt ∈ rest, pt.2 ≠ [] ∧ ∀ ch ∈ pt.2, ch ≠ ' ') →
    List.Pairwise (fun a b : Nat × List Char => a.1 ≤ b.1) rest →
    (∀ h ∈ hist, ∀ pt ∈ rest, h.s ≤ pt.1) →
    placeCleanLoop buf rest = true →
    (placeLoop buf rest).length = L ∧
    (placeTrace buf rest).length = rest.length ∧
    (∀ h ∈ hist, ∀ k, k < h.tok.length →
      (placeLoop buf rest).getD (h.q + k) ' ' = h.tok.getD k ' ') ∧
    (∀ i, i < rest.length → ∀ k, k < (rest.getD i (0, [])).2.length →
      (placeLoop buf rest).getD ((placeTrace buf rest).getD i 0 + k) ' '
        = (rest.getD i (0, [])).2.getD k ' ') ∧
    (∀ h ∈ hist, ∀ i, i < rest.length →
      h.q + h.tok.length ≤ (placeTrace buf rest).getD i 0) ∧
    (∀ i j, i < j → j < rest.length →
      (placeTrace buf rest).getD i 0 + (rest.getD i (0, [])).2.length
        ≤ (placeTrace buf rest).getD j 0) := by
  intro rest
  induction rest with
  | nil =>
    intro buf hist inv _ _ _ _
    refine ⟨inv.hlen, rfl, ?_, ?_, ?_, ?_⟩
    · exact inv.cells
    · intro i hi; simp at hi
    · intro h _ i hi; simp at hi
    · intro i j _ hj; simp at hj
  | cons st rest2 ih =>
    obtain ⟨s, tok⟩ := st
    intro buf hist inv htoks hsorted hsmax hclean
    obtain ⟨htok, htokc⟩ := htoks (s, tok) (List.mem_cons_self _ _)
    have hlen0 : 0 < tok.length := List.length_pos.mpr htok
    simp only [placeCleanLoop, Bool.and_eq_true, decide_eq_true_eq,
      Bool.not_eq_true'] at hclean
    obtain ⟨⟨⟨hsfit, hnocol⟩, hqfit⟩, hclean2⟩ := hclean
    have hmin : min s (buf.length - tok.length) = s := by omega
    rw [hmin] at hnocol hqfit
    set q := findFree buf tok.length s with hqdef
    have hstep : placeStep buf s tok = writeTok buf q tok := by
      unfold placeStep
      rw [hmin]
    obtain ⟨hhead, htail⟩ := List.pairwise_cons.mp hsorted
    have hsmaxh : ∀ h ∈ hist, h.s ≤ s :=
      fun h hh => hsmax h hh (s, tok) (List.mem_cons_self _ _)
    have hsq : s ≤ q := findFree_ge buf tok.length s
    have hfree0 : buf.getD q ' ' = ' ' := by
      have := collides_false_free buf tok.length q hnocol 0 hlen0 (by omega)
      simpa using this
    have hend : ∀ h ∈ hist, h.q + h.tok.length ≤ q :=
      hist_end_le L buf hist inv s q hsmaxh hsq hfree0
    have hqfitL : q + tok.length ≤ L := by
      rw [← inv.hlen]
      exact hqfit
    have inv2 : HistInv L (writeTok buf q tok) (⟨s, q, tok⟩ :: hist) :=
      histInv_extend L buf hist inv s tok htok htokc hsmaxh hnocol hqfitL
    have hsmax2 : ∀ h ∈ (⟨s, q, tok⟩ :: hist : List Placed),
        ∀ pt ∈ rest2, h.s ≤ pt.1 := by
      intro h hh pt hpt
      rcases List.mem_cons.mp hh with he | hm
      · subst he
        exact hhead pt hpt
      · exact hsmax h hm pt (List.mem_cons_of_mem _ hpt)
    obtain ⟨ih1, ih2, ih3, ih4, ih5, ih6⟩ :=
      ih (writeTok buf q tok) (⟨s, q, tok⟩ :: hist) inv2
        (fun pt hpt => htoks pt (List.mem_cons_of_mem _ hpt)) htail hsmax2
        (by rw [← hstep]; exact hclean2)
    have hloop : placeLoop buf ((s, tok) :: rest2) =
        placeLoop (writeTok buf q tok) rest2 := by
      rw [placeLoop, hstep]
    have htrace : placeTrace buf ((s, tok) :: rest2) =
        q :: placeTrace (writeTok buf q tok) rest2 := by
      rw [placeTrace, hmin, ← hqdef, hstep]
    rw [hloop, htrace]
    refine ⟨ih1, by simpa using ih2, ?_, ?_, ?_, ?_⟩
    · intro h hh k hk
      exact ih3 h (List.mem_cons_of_mem _ hh) k hk
    · intro i hi k hk
      match i with
      | 0 =>
        simp only [List.getD_cons_zero] at hk ⊢
        exact ih3 ⟨s, q, tok⟩ (List.mem_cons_self _ _) k hk
      | i + 1 =>
        simp only [List.getD_cons_succ, List.length_cons] at hk hi ⊢
        exact ih4 i (by omega) k hk
    · intro h hh i hi
      match i with
      | 0 =>
        simp only [List.getD_cons_zero]
        exact hend h hh
      | i + 1 =>
        simp only [List.getD_cons_succ, List.length_cons] at hi ⊢
        exact ih5 h (List.mem_cons_of_mem _ hh) i (by omega)
    · intro i j hij hj
      match i, j with
      | 0, j + 1 =>
        simp only [List.getD_cons_zero, List.getD_cons_succ,
          List.length_cons] at hj ⊢
        exact ih5 ⟨s, q, tok⟩ (List.mem_cons_self _ _) j (by omega)
      | i + 1, j + 1 =>
        simp only [List.getD_cons_succ, List.length_cons] at hj ⊢
        exact ih6 i j (by omega) (by omega)

/-! ### Reading placed tokens back through the final `rstrip` -/

theorem rstrip_getD_of_not_ws (l : List Char) (j : Nat)
    (h : pyIsSpace (l.getD j ' ') = false) :
    (rstrip l).getD j ' ' = l.getD j ' ' := by
  have hdecomp : rstrip l ++ (l.reverse.takeWhile pyIsSpace).reverse = l := by
    unfold rstrip
    rw [← List.reverse_append, List.takeWhile_append_dropWhile, List.reverse_reverse]
  by_cases hj : j < (rstrip l).length
  · conv_rhs => rw [← hdecomp]
    rw [getD_append_left _ _ j hj]
  · exfalso
    push_neg at hj
    by_cases hjl : j < l.length
    · have hsplitlen : l.length =
          (rstrip l).length + (l.reverse.takeWhile pyIsSpace).reverse.length := by
        conv_lhs => rw [← hdecomp]
        rw [List.length_append]
      have hk : l.getD j ' ' =
          ((l.reverse.takeWhile pyIsSpace).reverse).getD (j - (rstrip l).length) ' ' := by
        have hje : j = (rstrip l).length + (j - (rstrip l).length) := by omega
        conv_lhs => rw [← hdecomp, hje]
        rw [getD_append_plus]
      have hlt : j - (rstrip l).length <
          (l.reverse.takeWhile pyIsSpace).reverse.length := by omega
      rw [hk, List.getD_eq_getElem _ _ hlt] at h
      have hmem := List.getElem_mem hlt
      have hws := takeWhile_pred pyIsSpace l.reverse _ (List.mem_reverse.mp hmem)
      rw [hws] at h
      exact Bool.noConfusion h
    · have hdef : l.getD j ' ' = ' ' := List.getD_eq_default _ _ (by omega)
      rw [hdef] at h
      exact absurd h (by simp [pyIsSpace])

theorem eq_of_length_getD (A B : List Char) (hlen : A.length = B.length)
    (h : ∀ j, A.getD j ' ' = B.getD j ' ') : A = B := by
  apply List.ext_getElem hlen
  intro j h1 h2
  have := h j
  rwa [List.getD_eq_getElem _ _ h1, List.getD_eq_getElem _ _ h2] at this

theorem getD_take (l : List Char) (q j : Nat) (hj : j < q) :
    (l.take q).getD j ' ' = l.getD j ' ' := by
  rw [List.getD_eq_getElem?_getD, List.getD_eq_getElem?_getD, List.getElem?_take]
  rw [if_pos hj]

theorem getD_drop (l : List Char) (n m : Nat) :
    (l.drop n).getD m ' ' = l.getD (n + m) ' ' := by
  rw [List.getD_eq_getElem?_getD, List.getD_eq_getElem?_getD, List.getElem?_drop]

/-- A list whose cells on `[q, q + tok.length)` read back `tok` splits as
prefix, token, suffix: the token is a contiguous substring. -/
theorem window_decomp (out tok : List Char) (q : Nat)
    (hfit : q + tok.length ≤ out.length)
    (hcells : ∀ k, k < tok.length → out.getD (q + k) ' ' = tok.getD k ' ') :
    out = out.take q ++ tok ++ out.drop (q + tok.length) := by
  have htl : (out.take q).length = q := by
    simp only [List.length_take]
    omega
  apply eq_of_length_getD
  · simp only [List.length_append, List.length_take, List.length_drop]
    omega
  · intro j
    symm
    have hpl : (out.take q ++ tok).length = q + tok.length := by
      simp only [List.length_append]
      omega
    rcases Nat.lt_or_ge j q with hj | hj
    · rw [getD_append_left _ _ j (by omega), getD_append_left _ _ j (by omega),
        getD_take out q j hj]
    · rcases Nat.lt_or_ge j (q + tok.length) with hj2 | hj2
      · have hje : j = (out.take q).length + (j - q) := by omega
        rw [getD_append_left _ _ j (by omega)]
        conv_lhs => rw [hje]
        rw [getD_append_plus, ← hcells (j - q) (by omega)]
        congr 1
        omega
      · have hje : j = (out.take q ++ tok).length + (j - (q + tok.length)) := by
          omega
        conv_lhs => rw [hje]
        rw [getD_append_plus, getD_drop]
        congr 1
        omega

/-- The remapped-and-snapped `(column, token)` list `_place_chords` walks. -/
def placeNps (ps : List (Nat × List Char)) (old new : List Char) :
    List (Nat × List Char) :=
  ps.map fun pt => (_snap_to_boundary new (pt.1 * max new.length 1 / max old.length 1), pt.2)

/-- The initial all-space buffer of `_place_chords`. -/
def placeBuf (new : List Char) : List Char :=
  List.replicate (max new.length 1 + 10) ' '

theorem place_chords_as_loop (ps : List (Nat × List Char)) (old new : List Char)
    (hps : ps ≠ []) :
    _place_chords ps old new = rstrip (placeLoop (placeBuf new) (placeNps ps old new)) := by
  simp only [_place_chords, placeBuf, placeNps]
  rw [if_neg hps]

theorem placePositions_as_trace (ps : List (Nat × List Char)) (old new : List Char) :
    placePositions ps old new = placeTrace (placeBuf new) (placeNps ps old new) := rfl

theorem placeClean_as_loop (ps : List (Nat × List Char)) (old new : List Char) :
    placeClean ps old new = placeCleanLoop (placeBuf new) (placeNps ps old new) := rfl

/-- Assembled correctness of a clean `_place_chords` run over any strictly
column-sorted list of nonempty whitespace-free tokens: every token reads
back at its traced column, token blocks fit inside the trimmed output, and
blocks placed later start at or after the end of earlier blocks. -/
theorem place_clean_master (ps : List (Nat × List Char)) (old new : List Char)
    (hps : ps ≠ [])
    (htoks0 : ∀ pt ∈ ps, pt.2 ≠ [] ∧ ∀ ch ∈ pt.2, ch ≠ ' ' ∧ pyIsSpace ch = false)
    (hsorted0 : List.Pairwise (fun a b : Nat × List Char => a.1 < b.1) ps)
    (hclean : placeClean ps old new = true) :
    (placePositions ps old new).length = ps.length ∧
    (∀ i, i < ps.length → ∀ k, k < (ps.getD i (0, [])).2.length →
      (_place_chords ps old new).getD ((placePositions ps old new).getD i 0 + k) ' '
        = (ps.getD i (0, [])).2.getD k ' ') ∧
    (∀ i, i < ps.length →
      (placePositions ps old new).getD i 0 + (ps.getD i (0, [])).2.length
        ≤ (_place_chords ps old new).length) ∧
    (∀ i j, i < j → j < ps.length →
      (placePositions ps old new).getD i 0 + (ps.getD i (0, [])).2.length
        ≤ (placePositions ps old new).getD j 0) := by
  have inv0 : HistInv (max new.length 1 + 10) (placeBuf new) [] := by
    refine ⟨by simp [placeBuf], ?_, ?_, ?_, ?_, ?_, ?_⟩
    · intro h hh; simp at hh
    · intro c hc
      exact absurd (by simp only [placeBuf]; exact getD_replicate_space _ _) hc
    · intro h hh; simp at hh
    · intro h hh; simp at hh
    · intro h hh; simp at hh
    · intro h hh; simp at hh
  have hmlen : (placeNps ps old new).length = ps.length := by
    simp [placeNps]
  have htokeq : ∀ i, i < ps.length →
      ((placeNps ps old new).getD i (0, [])).2 = (ps.getD i (0, [])).2 := by
    intro i hi
    rw [List.getD_eq_getElem _ _ (by rw [hmlen]; exact hi)]
    simp only [placeNps]
    rw [List.getElem_map, List.getD_eq_getElem _ _ hi]
  have hptmem : ∀ i, i < ps.length → ps.getD i (0, []) ∈ ps := by
    intro i hi
    rw [List.getD_eq_getElem _ _ hi]
    exact List.getElem_mem hi
  have htokD : ∀ i, i < ps.length → ∀ k, k < (ps.getD i (0, [])).2.length →
      (ps.getD i (0, [])).2.getD k ' ' ≠ ' ' ∧
        pyIsSpace ((ps.getD i (0, [])).2.getD k ' ') = false := by
    intro i hi k hk
    have hmemc : (ps.getD i (0, [])).2.getD k ' ' ∈ (ps.getD i (0, [])).2 := by
      rw [List.getD_eq_getElem _ _ hk]
      exact List.getElem_mem hk
    exact (htoks0 _ (hptmem i hi)).2 _ hmemc
  have htoks : ∀ pt ∈ placeNps ps old new, pt.2 ≠ [] ∧ ∀ ch ∈ pt.2, ch ≠ ' ' := by
    intro pt hpt
    simp only [placeNps] at hpt
    obtain ⟨pt0, hpt0, rfl⟩ := List.mem_map.mp hpt
    exact ⟨(htoks0 pt0 hpt0).1, fun ch hch => ((htoks0 pt0 hpt0).2 ch hch).1⟩
  have hsorted : List.Pairwise (fun a b : Nat × List Char => a.1 ≤ b.1)
      (placeNps ps old new) := by
    simp only [placeNps]
    rw [List.pairwise_map]
    refine hsorted0.imp ?_
    intro a b hab
    exact snap_mono new _ _
      (Nat.div_le_div_right (Nat.mul_le_mul (Nat.le_of_lt hab) (Nat.le_refl _)))
  have hclean2 : placeCleanLoop (placeBuf new) (placeNps ps old new) = true := by
    rw [← placeClean_as_loop]
    exact hclean
  obtain ⟨g1, g2, g3, g4, g5, g6⟩ :=
    placeLoop_clean (max new.length 1 + 10) (placeNps ps old new) (placeBuf new) []
      inv0 htoks hsorted (by intro h hh; simp at hh) hclean2
  have hcellfin : ∀ i, i < ps.length → ∀ k, k < (ps.getD i (0, [])).2.length →
      (placeLoop (placeBuf new) (placeNps ps old new)).getD
          ((placeTrace (placeBuf new) (placeNps ps old new)).getD i 0 + k) ' '
        = (ps.getD i (0, [])).2.getD k ' ' := by
    intro i hi k hk
    have hi2 : i < (placeNps ps old new).length := by
      rw [hmlen]
      exact hi
    have hk2 : k < ((placeNps ps old new).getD i (0, [])).2.length := by
      rw [htokeq i hi]
      exact hk
    have hcell := g4 i hi2 k hk2
    rw [htokeq i hi] at hcell
    exact hcell
  have hcellout : ∀ i, i < ps.length → ∀ k, k < (ps.getD i (0, [])).2.length →
      (_place_chords ps old new).getD ((placePositions ps old new).getD i 0 + k) ' '
        = (ps.getD i (0, [])).2.getD k ' ' := by
    intro i hi k hk
    rw [place_chords_as_loop ps old new hps, placePositions_as_trace]
    rw [rstrip_getD_of_not_ws _ _ (by
      rw [hcellfin i hi k hk]
      exact (htokD i hi k hk).2)]
    exact hcellfin i hi k hk
  have hfit : ∀ i, i < ps.length →
      (placePositions ps old new).getD i 0 + (ps.getD i (0, [])).2.length
        ≤ (_place_chords ps old new).length := by
    intro i hi
    have hlen1 : 0 < (ps.getD i (0, [])).2.length :=
      List.length_pos.mpr (htoks0 _ (hptmem i hi)).1
    have hlast := hcellout i hi ((ps.getD i (0, [])).2.length - 1) (by omega)
    have hne : (_place_chords ps old new).getD
        ((placePositions ps old new).getD i 0 +
          ((ps.getD i (0, [])).2.length - 1)) ' ' ≠ ' ' := by
      rw [hlast]
      exact (htokD i hi _ (by omega)).1
    by_contra hc
    push_neg at hc
    exact hne (List.getD_eq_default _ _ (by omega))
  refine ⟨?_, hcellout, hfit, ?_⟩
  · rw [placePositions_as_trace, g2, hmlen]
  · intro i j hij hj
    rw [placePositions_as_trace]
    have hg := g6 i j hij (by rw [hmlen]; omega)
    rw [htokeq i (by omega)] at hg
    exact hg

/-- C1 counterexample: on the two-token chord line "Cmaj7sus4add9 G" over
old lyric "ab" and non-blank new lyric "x", `_place_chords` emits only 11
characters, so the 13-character first token is not contained in the output
as a contiguous substring: the tiny buffer (`len(new)+10`) truncates the
first chord and the capped collision search overwrites its tail with "G". -/
theorem claim_C1_cex :
    is_chord_line ("Cmaj7sus4add9 G".toList) = true ∧
    2 ≤ (_extract_chord_positions ("Cmaj7sus4add9 G".toList)).length ∧
    pyStrip ("x".toList) ≠ [] ∧
    ((_extract_chord_positions ("Cmaj7sus4add9 G".toList)).getD 0 (0, [])).2
      = "Cmaj7sus4add9".toList ∧
    ¬ ∃ pre post : List Char,
      _place_chords (_extract_chord_positions ("Cmaj7sus4add9 G".toList))
          ("ab".toList) ("x".toList)
        = pre ++ "Cmaj7sus4add9".toList ++ post := by
  refine ⟨by decide, by decide, by decide, by decide, ?_⟩
  rintro ⟨pre, post, h⟩
  have hlen : (_place_chords (_extract_chord_positions ("Cmaj7sus4add9 G".toList))
      ("ab".toList) ("x".toList)).length = 11 := by decide
  have h13 : ("Cmaj7sus4add9".toList).length = 13 := by decide
  have h2 := congrArg List.length h
  rw [hlen] at h2
  simp only [List.length_append] at h2
  omega

/-- C1 (amended): for every chord line `C` with at least two extracted
tokens and whose whitespace characters are all plain spaces, every old
lyric line and non-blank new lyric line, if the placement run is *clean*
(every token is written into an in-bounds slot that is free when reached —
no buffer-edge truncation and no collision-cap overwrite), then
`_place_chords` contains each input token as a contiguous substring at its
placed column, the placed token blocks do not overlap, and the placed
columns are strictly increasing in input order.  `claim_C1_cex` shows the
unconditional claim is false. -/
theorem claim_C1_place_no_overlap (C old new : List Char)
    (h2 : 2 ≤ (_extract_chord_positions C).length)
    (hws : ∀ c ∈ C, pyIsSpace c = true → c = ' ')
    (hnb : pyStrip new ≠ [])
    (hclean : placeClean (_extract_chord_positions C) old new = true) :
    (placePositions (_extract_chord_positions C) old new).length
        = (_extract_chord_positions C).length ∧
    (∀ i, i < (_extract_chord_positions C).length →
      _place_chords (_extract_chord_positions C) old new
        = (_place_chords (_extract_chord_positions C) old new).take
              ((placePositions (_extract_chord_positions C) old new).getD i 0)
            ++ ((_extract_chord_positions C).getD i (0, [])).2
            ++ (_place_chords (_extract_chord_positions C) old new).drop
              ((placePositions (_extract_chord_positions C) old new).getD i 0
                + ((_extract_chord_positions C).getD i (0, [])).2.length)) ∧
    (∀ i j, i < j → j < (_extract_chord_positions C).length →
      (placePositions (_extract_chord_positions C) old new).getD i 0
          + ((_extract_chord_positions C).getD i (0, [])).2.length
        ≤ (placePositions (_extract_chord_positions C) old new).getD j 0) ∧
    (∀ i j, i < j → j < (_extract_chord_positions C).length →
      (placePositions (_extract_chord_positions C) old new).getD i 0
        < (placePositions (_extract_chord_positions C) old new).getD j 0) := by
  have hps : _extract_chord_positions C ≠ [] := by
    intro he
    rw [he] at h2
    simp at h2
  have htoks0 : ∀ pt ∈ _extract_chord_positions C,
      pt.2 ≠ [] ∧ ∀ ch ∈ pt.2, ch ≠ ' ' ∧ pyIsSpace ch = false := by
    intro pt hpt
    obtain ⟨hne, hch⟩ := extract_tok_shape C.length C 0 pt hpt
    refine ⟨hne, fun ch hch2 => ⟨hch ch hch2, ?_⟩⟩
    have hin : ch ∈ C := extract_chars_mem C.length C 0 pt hpt ch hch2
    cases hb : pyIsSpace ch with
    | false => rfl
    | true => exact absurd (hws ch hin hb) (hch ch hch2)
  obtain ⟨m1, m2, m3, m4⟩ := place_clean_master (_extract_chord_positions C) old new
    hps htoks0 (extract_sorted C.length C 0) hclean
  refine ⟨m1, ?_, m4, ?_⟩
  · intro i hi
    exact window_decomp _ _ _ (m3 i hi) (m2 i hi)
  · intro i j hij hj
    have hm := m4 i j hij hj
    have hmemp : (_extract_chord_positions C).getD i (0, [])
        ∈ _extract_chord_positions C := by
      rw [List.getD_eq_getElem _ _ (by omega)]
      exact List.getElem_mem (by omega)
    have hlen1 : 0 < ((_extract_chord_positions C).getD i (0, [])).2.length :=
      List.length_pos.mpr (htoks0 _ hmemp).1
    omega

/-- Closed witness for the amended C1: the clean run of "G  Am" over
old "Hello world" and new "Hi there friend" places both tokens without
overlap. -/
theorem claim_C1_witness :
    (placePositions (_extract_chord_positions ("G  Am".toList)) ("Hello world".toList)
          ("Hi there friend".toList)).length
        = (_extract_chord_positions ("G  Am".toList)).length ∧
    (placePositions (_extract_chord_positions ("G  Am".toList)) ("Hello world".toList)
          ("Hi there friend".toList)).getD 0 0
        + ((_extract_chord_positions ("G  Am".toList)).getD 0 (0, [])).2.length
      ≤ (placePositions (_extract_chord_positions ("G  Am".toList)) ("Hello world".toList)
          ("Hi there friend".toList)).getD 1 0 :=
  ⟨(claim_C1_place_no_overlap ("G  Am".toList) ("Hello world".toList)
      ("Hi there friend".toList) (by decide) (by decide) (by decide) (by decide)).1,
   (claim_C1_place_no_overlap ("G  Am".toList) ("Hello world".toList)
      ("Hi there friend".toList) (by decide) (by decide) (by decide) (by decide)).2.2.1
     0 1 (by decide) (by decide)⟩

end Porchsongs
